import Mathlib

/-!
Verification of the undo/redo command subsystem of veusz
(`src/veusz/document/operations.py`) together with one step of the 2D
text-data reader (`src/veusz/dataimport/simpleread.py`).

The Python code is shallowly embedded: the document (widget tree, dataset
mapping, custom definitions, history-batch flag) is a pure value, every
`Operation*` class becomes a constructor of the `Op` type carrying both its
construction arguments and the state the class stores on `self` during
`do`, and `do`/`undo` become pure functions returning the mutated operation
value, the mutated document and an optional raised exception.  Python dicts
compare equal irrespective of insertion order, so dict-valued state
(`document.data`, `params.renames`) is kept in a canonical sorted
association list (`Smap`); Python `set` values (`dataset.tags`) are
`Finset`s.  External collaborators that live outside the two source files
(path resolvers, `Widget.moveChild`, `Dataset.deleteRows`, ...) are
modelled from the specification and marked as such at their definitions.
-/

set_option autoImplicit false

namespace Veusz

/-- Exceptions that the modelled Python code can raise. -/
inductive Err where
  | keyError
  | attrError
  | indexError
  | runtimeError
  | typeError
  | interpreterError
  deriving DecidableEq

/-- Keys of an association list are strictly ascending (canonical dict form). -/
def EntriesSorted {K V : Type} [LinearOrder K] (l : List (K × V)) : Prop :=
  l.Pairwise (fun a b => a.1 < b.1)

/-- Raw lookup, `d[k]` on an association list. -/
def lookupL {K V : Type} [LinearOrder K] (k : K) : List (K × V) → Option V
  | [] => none
  | e :: es => if e.1 = k then some e.2 else lookupL k es

/-- Raw insert-or-replace, `d[k] = v`, keeping the sorted form. -/
def insertL {K V : Type} [LinearOrder K] (k : K) (v : V) : List (K × V) → List (K × V)
  | [] => [(k, v)]
  | e :: es =>
    if k < e.1 then (k, v) :: e :: es
    else if k = e.1 then (k, v) :: es
    else e :: insertL k v es

/-- Raw delete, `del d[k]` (no-op when the key is absent). -/
def eraseL {K V : Type} [LinearOrder K] (k : K) : List (K × V) → List (K × V)
  | [] => []
  | e :: es => if e.1 = k then es else e :: eraseL k es

/-- Raw value adjustment at a key, `d[k].field = v` style in-place mutation;
does nothing when the key is absent. -/
def adjustL {K V : Type} [LinearOrder K] (k : K) (f : V → V) (l : List (K × V)) :
    List (K × V) :=
  l.map fun e => if e.1 = k then (e.1, f e.2) else e

theorem mem_insertL {K V : Type} [LinearOrder K] {k : K} {v : V} {l : List (K × V)}
    {b : K × V} (h : b ∈ insertL k v l) : b = (k, v) ∨ b ∈ l := by
  induction l with
  | nil => simpa [insertL] using h
  | cons e es ih =>
    by_cases h1 : k < e.1
    · simp only [insertL, if_pos h1, List.mem_cons] at h ⊢
      tauto
    · by_cases h2 : k = e.1
      · simp only [insertL, if_neg h1, if_pos h2, List.mem_cons] at h ⊢
        tauto
      · simp only [insertL, if_neg h1, if_neg h2, List.mem_cons] at h ⊢
        rcases h with h | h
        · exact Or.inr (Or.inl h)
        · rcases ih h with h | h
          · exact Or.inl h
          · exact Or.inr (Or.inr h)

theorem insertL_sorted {K V : Type} [LinearOrder K] (k : K) (v : V) {l : List (K × V)}
    (h : EntriesSorted l) : EntriesSorted (insertL k v l) := by
  induction l with
  | nil => simp [insertL, EntriesSorted]
  | cons e es ih =>
    rcases h with _ | ⟨he, hes⟩
    by_cases h1 : k < e.1
    · simp only [insertL, if_pos h1]
      refine List.Pairwise.cons ?_ (List.Pairwise.cons he hes)
      intro b hb
      rcases List.mem_cons.mp hb with hb | hb
      · simp [hb, h1]
      · exact lt_trans h1 (he b hb)
    · by_cases h2 : k = e.1
      · simp only [insertL, if_neg h1, if_pos h2]
        refine List.Pairwise.cons ?_ hes
        intro b hb
        simpa [h2] using he b hb
      · simp only [insertL, if_neg h1, if_neg h2]
        refine List.Pairwise.cons ?_ (ih hes)
        intro b hb
        rcases mem_insertL hb with hb | hb
        · subst hb
          exact lt_of_le_of_ne (le_of_not_lt h1) (Ne.symm h2)
        · exact he b hb

theorem eraseL_sublist {K V : Type} [LinearOrder K] (k : K) (l : List (K × V)) :
    (eraseL k l).Sublist l := by
  induction l with
  | nil => simp [eraseL]
  | cons e es ih =>
    by_cases h1 : e.1 = k
    · simpa [eraseL, h1] using List.sublist_cons_self e es
    · simpa [eraseL, h1] using List.Sublist.cons₂ e ih

theorem eraseL_sorted {K V : Type} [LinearOrder K] (k : K) {l : List (K × V)}
    (h : EntriesSorted l) : EntriesSorted (eraseL k l) :=
  List.Pairwise.sublist (eraseL_sublist k l) h

theorem adjustL_sorted {K V : Type} [LinearOrder K] (k : K) (f : V → V)
    {l : List (K × V)} (h : EntriesSorted l) : EntriesSorted (adjustL k f l) := by
  rw [EntriesSorted, adjustL, List.pairwise_map]
  refine h.imp_of_mem ?_
  intro a b _ _ hab
  by_cases h1 : a.1 = k <;> by_cases h2 : b.1 = k <;> simpa [h1, h2] using hab

/-- A Python dict in canonical (sorted) form. -/
structure Smap (K V : Type) [LinearOrder K] where
  entries : List (K × V)
  sorted : EntriesSorted entries

theorem Smap.ext_entries {K V : Type} [LinearOrder K] {a b : Smap K V}
    (h : a.entries = b.entries) : a = b := by
  cases a; cases b; simpa using h

instance {K V : Type} [LinearOrder K] [DecidableEq K] [DecidableEq V] :
    DecidableEq (Smap K V) := fun a b =>
  decidable_of_iff (a.entries = b.entries)
    ⟨Smap.ext_entries, fun h => by rw [h]⟩

/-- The empty dict. -/
def Smap.empty {K V : Type} [LinearOrder K] : Smap K V :=
  ⟨[], List.Pairwise.nil⟩

/-- Dict lookup `d.get(k)` / `d[k]`. -/
def Smap.lookup {K V : Type} [LinearOrder K] (m : Smap K V) (k : K) : Option V :=
  lookupL k m.entries

/-- Dict store `d[k] = v`. -/
def Smap.insert {K V : Type} [LinearOrder K] (m : Smap K V) (k : K) (v : V) : Smap K V :=
  ⟨insertL k v m.entries, insertL_sorted k v m.sorted⟩

/-- Dict delete `del d[k]`. -/
def Smap.erase {K V : Type} [LinearOrder K] (m : Smap K V) (k : K) : Smap K V :=
  ⟨eraseL k m.entries, eraseL_sorted k m.sorted⟩

/-- In-place mutation of the value stored at `k` (no-op when absent). -/
def Smap.adjust {K V : Type} [LinearOrder K] (m : Smap K V) (k : K) (f : V → V) :
    Smap K V :=
  ⟨adjustL k f m.entries, adjustL_sorted k f m.sorted⟩

theorem lookupL_insertL_self {K V : Type} [LinearOrder K] (k : K) (v : V)
    (l : List (K × V)) : lookupL k (insertL k v l) = some v := by
  induction l with
  | nil => simp [insertL, lookupL]
  | cons e es ih =>
    by_cases h1 : k < e.1
    · simp [insertL, h1, lookupL]
    · by_cases h2 : k = e.1
      · simp [insertL, h1, h2, lookupL]
      · simp [insertL, h1, h2, lookupL, Ne.symm h2, ih]

theorem lookupL_insertL_ne {K V : Type} [LinearOrder K] {q k : K} (v : V)
    (l : List (K × V)) (h : q ≠ k) : lookupL q (insertL k v l) = lookupL q l := by
  induction l with
  | nil => simp [insertL, lookupL, Ne.symm h]
  | cons e es ih =>
    by_cases h1 : k < e.1
    · simp [insertL, h1, lookupL, Ne.symm h]
    · by_cases h2 : k = e.1
      · have he1 : ¬ e.1 = q := fun hh => h (h2.trans hh).symm
        simp [insertL, h1, h2, lookupL, Ne.symm h, he1]
      · simp only [insertL, if_neg h1, if_neg h2, lookupL]
        by_cases h3 : e.1 = q
        · simp [h3]
        · simp [h3, ih]

theorem lookupL_some_mem {K V : Type} [LinearOrder K] {k : K} {v : V}
    {l : List (K × V)} (h : lookupL k l = some v) : (k, v) ∈ l := by
  induction l with
  | nil => simp [lookupL] at h
  | cons e es ih =>
    by_cases h1 : e.1 = k
    · simp only [lookupL, if_pos h1] at h
      have hv : e.2 = v := by injection h
      exact List.mem_cons.mpr (Or.inl (Prod.ext h1 hv).symm)
    · simp only [lookupL, if_neg h1] at h
      exact List.mem_cons_of_mem _ (ih h)

theorem lookupL_eraseL_self {K V : Type} [LinearOrder K] (k : K) {l : List (K × V)}
    (hs : EntriesSorted l) : lookupL k (eraseL k l) = none := by
  induction l with
  | nil => simp [eraseL, lookupL]
  | cons e es ih =>
    rcases hs with _ | ⟨he, hes⟩
    by_cases h1 : e.1 = k
    · simp only [eraseL, if_pos h1]
      cases hq : lookupL k es with
      | none => rfl
      | some v =>
        have := he _ (lookupL_some_mem hq)
        simp only at this
        exact absurd (h1 ▸ this) (lt_irrefl k)
    · simp [eraseL, h1, lookupL, ih hes]

theorem lookupL_eraseL_ne {K V : Type} [LinearOrder K] {q k : K} (l : List (K × V))
    (h : q ≠ k) : lookupL q (eraseL k l) = lookupL q l := by
  induction l with
  | nil => simp [eraseL]
  | cons e es ih =>
    by_cases h1 : e.1 = k
    · simp [eraseL, h1, lookupL, Ne.symm h]
    · by_cases h2 : e.1 = q
      · simp [eraseL, h1, lookupL, h2, h]
      · simp [eraseL, h1, lookupL, h2, ih]

theorem eraseL_insertL {K V : Type} [LinearOrder K] {k : K} (v : V)
    {l : List (K × V)} (h : lookupL k l = none) : eraseL k (insertL k v l) = l := by
  induction l with
  | nil => simp [insertL, eraseL]
  | cons e es ih =>
    have h1 : e.1 ≠ k := by
      intro hq
      simp [lookupL, hq] at h
    have h2 : lookupL k es = none := by
      simpa [lookupL, h1] using h
    by_cases h3 : k < e.1
    · simp [insertL, h3, eraseL, h1]
    · have h4 : k ≠ e.1 := Ne.symm h1
      simp [insertL, h3, h4, eraseL, h1, ih h2]

theorem insertL_front {K V : Type} [LinearOrder K] (k : K) (v : V)
    {l : List (K × V)} (h : ∀ e ∈ l, k < e.1) : insertL k v l = (k, v) :: l := by
  cases l with
  | nil => simp [insertL]
  | cons e es => simp [insertL, h e (List.mem_cons_self e es)]

theorem insertL_eraseL {K V : Type} [LinearOrder K] {k : K} {v : V}
    {l : List (K × V)} (hs : EntriesSorted l) (h : lookupL k l = some v) :
    insertL k v (eraseL k l) = l := by
  induction l with
  | nil => simp [lookupL] at h
  | cons e es ih =>
    rcases hs with _ | ⟨he, hes⟩
    by_cases h1 : e.1 = k
    · simp only [lookupL, if_pos h1] at h
      obtain ⟨ek, ev⟩ : e.1 = k ∧ e.2 = v := ⟨h1, by injection h⟩
      simp only [eraseL, if_pos h1]
      rw [insertL_front k v fun b hb => ek ▸ he b hb]
      cases e
      simp_all
    · simp only [lookupL, if_neg h1] at h
      have hlt : e.1 < k := by
        have := he _ (lookupL_some_mem h)
        simpa using this
      simp only [eraseL, if_neg h1]
      rw [insertL]
      simp only [if_neg (asymm hlt), if_neg (Ne.symm (ne_of_lt hlt))]
      rw [ih hes h]

theorem insertL_lookup_self {K V : Type} [LinearOrder K] {k : K} {v : V}
    {l : List (K × V)} (hs : EntriesSorted l) (h : lookupL k l = some v) :
    insertL k v l = l := by
  induction l with
  | nil => simp [lookupL] at h
  | cons e es ih =>
    rcases hs with _ | ⟨he, hes⟩
    by_cases h1 : e.1 = k
    · simp only [lookupL, if_pos h1] at h
      have hv : e.2 = v := by injection h
      have hnlt : ¬ k < e.1 := by simp [h1]
      rw [insertL]
      simp only [if_neg hnlt, if_pos (Eq.symm h1)]
      cases e
      simp_all
    · simp only [lookupL, if_neg h1] at h
      have hlt : e.1 < k := by
        have := he _ (lookupL_some_mem h)
        simpa using this
      rw [insertL]
      simp only [if_neg (asymm hlt), if_neg (Ne.symm (ne_of_lt hlt))]
      rw [ih hes h]

theorem lookupL_adjustL_self {K V : Type} [LinearOrder K] (k : K) (f : V → V)
    (l : List (K × V)) : lookupL k (adjustL k f l) = (lookupL k l).map f := by
  induction l with
  | nil => simp [adjustL, lookupL]
  | cons e es ih =>
    by_cases h1 : e.1 = k
    · simp [adjustL, lookupL, h1]
    · simpa [adjustL, lookupL, h1] using ih

theorem lookupL_adjustL_ne {K V : Type} [LinearOrder K] {q k : K} (f : V → V)
    (l : List (K × V)) (h : q ≠ k) : lookupL q (adjustL k f l) = lookupL q l := by
  induction l with
  | nil => simp [adjustL, lookupL]
  | cons e es ih =>
    by_cases h2 : e.1 = q
    · have h1 : ¬ e.1 = k := fun hh => h (h2.symm.trans hh)
      simp [adjustL, lookupL, h1, h2, h]
    · by_cases h1 : e.1 = k
      · simp only [adjustL, List.map_cons, if_pos h1, lookupL, if_neg h2]
        exact ih
      · simp only [adjustL, List.map_cons, if_neg h1, lookupL, if_neg h2]
        exact ih

theorem Smap.lookup_insert_self {K V : Type} [LinearOrder K] (m : Smap K V)
    (k : K) (v : V) : (m.insert k v).lookup k = some v :=
  lookupL_insertL_self k v m.entries

theorem Smap.lookup_insert_ne {K V : Type} [LinearOrder K] (m : Smap K V)
    {q k : K} (v : V) (h : q ≠ k) : (m.insert k v).lookup q = m.lookup q :=
  lookupL_insertL_ne v m.entries h

theorem Smap.lookup_erase_self {K V : Type} [LinearOrder K] (m : Smap K V)
    (k : K) : (m.erase k).lookup k = none :=
  lookupL_eraseL_self k m.sorted

theorem Smap.lookup_erase_ne {K V : Type} [LinearOrder K] (m : Smap K V)
    {q k : K} (h : q ≠ k) : (m.erase k).lookup q = m.lookup q :=
  lookupL_eraseL_ne m.entries h

theorem Smap.erase_insert {K V : Type} [LinearOrder K] (m : Smap K V)
    {k : K} (v : V) (h : m.lookup k = none) : (m.insert k v).erase k = m :=
  Smap.ext_entries (eraseL_insertL v h)

theorem Smap.insert_erase {K V : Type} [LinearOrder K] (m : Smap K V)
    {k : K} {v : V} (h : m.lookup k = some v) : (m.erase k).insert k v = m :=
  Smap.ext_entries (insertL_eraseL m.sorted h)

theorem Smap.insert_lookup {K V : Type} [LinearOrder K] (m : Smap K V)
    {k : K} {v : V} (h : m.lookup k = some v) : m.insert k v = m :=
  Smap.ext_entries (insertL_lookup_self m.sorted h)

theorem Smap.lookup_adjust_self {K V : Type} [LinearOrder K] (m : Smap K V)
    (k : K) (f : V → V) : (m.adjust k f).lookup k = (m.lookup k).map f :=
  lookupL_adjustL_self k f m.entries

theorem Smap.lookup_adjust_ne {K V : Type} [LinearOrder K] (m : Smap K V)
    {q k : K} (f : V → V) (h : q ≠ k) : (m.adjust k f).lookup q = m.lookup q :=
  lookupL_adjustL_ne f m.entries h

/-- A value stored in a setting: either a literal value or a reference
binding.  `setting.isReference()` distinguishes the two, `getReference()`
returns the binding and `get()` the literal value; `set` accepts either. -/
inductive SVal where
  | lit (v : Int)
  | ref (target : String)
  deriving DecidableEq

/-- The settings tree hanging off a widget: named leaves and named
sub-groups (`s.get(name)` descends one level). -/
inductive SettingTree where
  | leaf (v : SVal)
  | node (items : List (String × SettingTree))

/-- A widget of the document tree: name, type name, settings and the
ordered list of child widgets.  The Python parent back-reference is left
implicit (it is derivable from the tree). -/
inductive Widget where
  | mk (name : String) (typename : String)
      (settings : List (String × SettingTree)) (children : List Widget)

def Widget.name : Widget → String
  | .mk n _ _ _ => n

def Widget.typename : Widget → String
  | .mk _ t _ _ => t

def Widget.settings : Widget → List (String × SettingTree)
  | .mk _ _ s _ => s

def Widget.children : Widget → List Widget
  | .mk _ _ _ c => c

/-- The `params` attribute of a dataset's file link (`ds.linked.params`);
only the `renames` mapping matters for the modelled operations.  `none`
models the Python value `None`, `some` a dict. -/
structure LinkParams where
  renames : Option (Smap String String)
  deriving DecidableEq

/-- A dataset's link to its originating import file (`ds.linked`). -/
structure Link where
  filename : String
  params : LinkParams
  deriving DecidableEq

/-- A 1D dataset: value column, optional error columns, tag set and
optional file link.  Numeric cells are modelled as integers; none of the
verified claims depends on floating-point arithmetic.  The value column is
optional exactly as in Python: it is `None` only in the transient state
that OperationDatasetAddColumn.undo leaves after removing the `data`
column (`setattr(ds, 'data', None)`). -/
structure Dataset where
  data : Option (List Int)
  serr : Option (List Int)
  perr : Option (List Int)
  nerr : Option (List Int)
  tags : Finset String
  linked : Option Link
  deriving DecidableEq

/-- The document: widget tree root (`document.basewidget`), dataset mapping
(`document.data`), custom definitions (`document.customs`, each kept as an
opaque triple of strings) and whether a history-grouping transaction is
currently open (set by `document.batchHistory`). -/
structure Doc where
  basewidget : Widget
  data : Smap String Dataset
  customs : List (String × String × String)
  batchOpen : Bool

/-- First child carrying the given name (`widget path resolution steps and
`removeChild` both address children by name; sibling names are unique in
veusz). -/
def Widget.findChild (w : Widget) (nm : String) : Option Widget :=
  w.children.find? fun c => c.name = nm

mutual

/-- Modelled from the spec: `document.resolveFullWidgetPath`, with the path
already split at the slashes, walks down the tree by child name. -/
def resolveW : Widget → List String → Option Widget
  | w, [] => some w
  | .mk _ _ _ c, p :: rest => resolveWC c p rest

/-- Helper of `resolveW`: scan a child list for the next path segment. -/
def resolveWC : List Widget → String → List String → Option Widget
  | [], _, _ => none
  | c :: cs, p, rest =>
    if c.name = p then resolveW c rest else resolveWC cs p rest

end

mutual

/-- Apply `f` to the widget at the given path (identity when the path does
not resolve); the pure counterpart of mutating a resolved widget. -/
def updateAt : Widget → List String → (Widget → Widget) → Widget
  | w, [], f => f w
  | .mk n t s c, p :: rest, f => .mk n t s (updateAtC c p rest f)

/-- Helper of `updateAt`: descend into the first child matching the next
path segment. -/
def updateAtC : List Widget → String → List String → (Widget → Widget) → List Widget
  | [], _, _, _ => []
  | c :: cs, p, rest, f =>
    if c.name = p then updateAt c rest f :: cs else c :: updateAtC cs p rest f

end

/-- Index of the first child with the given name (`children.index(widget)`
under unique sibling names). -/
def findIdxNamed (nm : String) (l : List Widget) : Nat :=
  l.findIdx fun c => c.name = nm

/-- Remove the first child with the given name (`parent.removeChild(name)`,
modelled from the spec of the widget collaborator). -/
def eraseNamed (nm : String) : List Widget → List Widget
  | [] => []
  | c :: cs => if c.name = nm then cs else c :: eraseNamed nm cs

/-- Modelled from the spec: `parent.addChild(w, index=i)` inserts at the
index, appending when the index is past the end (Python `list.insert`). -/
def pyInsert {α : Type} (i : Nat) (a : α) (l : List α) : List α :=
  l.take i ++ a :: l.drop i

/-- Rewrite a widget's child list in place, leaving everything else. -/
def mapChildren (f : List Widget → List Widget) : Widget → Widget
  | .mk n t s c => .mk n t s (f c)

theorem mapChildren_name (f : List Widget → List Widget) (w : Widget) :
    (mapChildren f w).name = w.name := by
  cases w
  rfl

theorem updateAt_name {f : Widget → Widget} (hf : ∀ x, (f x).name = x.name)
    (w : Widget) (p : List String) : (updateAt w p f).name = w.name := by
  cases p with
  | nil => simpa [updateAt] using hf w
  | cons s rest =>
    cases w
    simp [updateAt, Widget.name]

theorem updateAtC_comp {f g : Widget → Widget} (hg : ∀ x, (g x).name = x.name)
    (p : String) (rest : List String)
    (ih : ∀ w, updateAt (updateAt w rest g) rest f = updateAt w rest fun x => f (g x))
    (c : List Widget) :
    updateAtC (updateAtC c p rest g) p rest f = updateAtC c p rest fun x => f (g x) := by
  induction c with
  | nil => simp [updateAtC]
  | cons c0 cs ihc =>
    by_cases h : c0.name = p
    · have hn : (updateAt c0 rest g).name = c0.name := updateAt_name hg c0 rest
      simp only [updateAtC, if_pos h, if_pos (hn.trans h)]
      rw [ih c0]
    · simp only [updateAtC, if_neg h]
      rw [ihc]

theorem updateAt_comp {f g : Widget → Widget} (hg : ∀ x, (g x).name = x.name)
    (w : Widget) (p : List String) :
    updateAt (updateAt w p g) p f = updateAt w p fun x => f (g x) := by
  induction p generalizing w with
  | nil => simp [updateAt]
  | cons s rest ih =>
    cases w with
    | mk n t st c =>
      simp only [updateAt]
      rw [updateAtC_comp hg s rest ih c]

theorem updateAt_congr {f g : Widget → Widget} {w : Widget} {p : List String}
    {n : Widget} (hres : resolveW w p = some n) (hfg : f n = g n) :
    updateAt w p f = updateAt w p g := by
  induction p generalizing w with
  | nil =>
    simp only [resolveW, Option.some.injEq] at hres
    subst hres
    simpa [updateAt] using hfg
  | cons s rest ih =>
    cases w with
    | mk nm t st c =>
      simp only [resolveW] at hres
      simp only [updateAt]
      have : updateAtC c s rest f = updateAtC c s rest g := by
        induction c with
        | nil => rfl
        | cons c0 cs ihc =>
          by_cases h : c0.name = s
          · simp only [resolveWC, if_pos h] at hres
            simp only [updateAtC, if_pos h]
            rw [ih hres]
          · simp only [resolveWC, if_neg h] at hres
            simp only [updateAtC, if_neg h]
            rw [ihc hres]
      rw [this]

theorem updateAt_id (w : Widget) (p : List String) :
    updateAt w p (fun x => x) = w := by
  induction p generalizing w with
  | nil => simp [updateAt]
  | cons s rest ih =>
    cases w with
    | mk nm t st c =>
      simp only [updateAt]
      have : updateAtC c s rest (fun x => x) = c := by
        induction c with
        | nil => rfl
        | cons c0 cs ihc =>
          by_cases h : c0.name = s
          · simp only [updateAtC, if_pos h, ih c0, ihc]
          · simp only [updateAtC, if_neg h, ihc]
      rw [this]

theorem updateAt_eq_self {f : Widget → Widget} {w : Widget} {p : List String}
    {n : Widget} (hres : resolveW w p = some n) (hf : f n = n) :
    updateAt w p f = w :=
  (updateAt_congr hres hf).trans (updateAt_id w p)

theorem resolveW_updateAt_self {f : Widget → Widget}
    (hf : ∀ x, (f x).name = x.name) {w : Widget} {p : List String} {n : Widget}
    (hres : resolveW w p = some n) :
    resolveW (updateAt w p f) p = some (f n) := by
  induction p generalizing w with
  | nil =>
    simp only [resolveW, Option.some.injEq] at hres
    subst hres
    simp [updateAt, resolveW]
  | cons s rest ih =>
    cases w with
    | mk nm t st c =>
      simp only [resolveW] at hres
      simp only [updateAt, resolveW]
      induction c with
      | nil => simp [resolveWC] at hres
      | cons c0 cs ihc =>
        by_cases h : c0.name = s
        · simp only [resolveWC, if_pos h] at hres
          have hn : (updateAt c0 rest f).name = c0.name := updateAt_name hf c0 rest
          simp only [updateAtC, if_pos h, resolveWC, if_pos (hn.trans h)]
          exact ih hres
        · simp only [resolveWC, if_neg h] at hres
          simp only [updateAtC, if_neg h, resolveWC, if_neg h]
          exact ihc hres

theorem resolveW_append (w : Widget) (p q : List String) :
    resolveW w (p ++ q) = (resolveW w p).bind fun x => resolveW x q := by
  induction p generalizing w with
  | nil => simp [resolveW]
  | cons s rest ih =>
    cases w with
    | mk nm t st c =>
      simp only [List.cons_append, resolveW]
      induction c with
      | nil => simp [resolveWC]
      | cons c0 cs ihc =>
        by_cases h : c0.name = s
        · simp only [resolveWC, if_pos h]
          exact ih c0
        · simpa only [resolveWC, if_neg h] using ihc

theorem resolveWC_nil (c : List Widget) (nm : String) :
    resolveWC c nm [] = c.find? fun x => x.name = nm := by
  induction c with
  | nil => rfl
  | cons c0 cs ih =>
    by_cases h : c0.name = nm
    · rw [List.find?_cons_of_pos _ (by simpa using h)]
      simp [resolveWC, h, resolveW]
    · rw [List.find?_cons_of_neg _ (by simpa using h)]
      simp only [resolveWC, if_neg h]
      exact ih

theorem resolveW_singleton (w : Widget) (nm : String) :
    resolveW w [nm] = w.children.find? fun x => x.name = nm := by
  cases w with
  | mk n t st c => simpa [resolveW] using resolveWC_nil c nm

theorem pyInsert_eraseNamed {l : List Widget} {nm : String} {w : Widget}
    (h : (l.find? fun c => c.name = nm) = some w) :
    pyInsert (findIdxNamed nm l) w (eraseNamed nm l) = l := by
  induction l with
  | nil => simp at h
  | cons c cs ih =>
    by_cases h1 : c.name = nm
    · rw [List.find?_cons_of_pos _ (by simpa using h1)] at h
      have hw : c = w := by injection h
      subst hw
      simp [findIdxNamed, List.findIdx_cons, h1, eraseNamed, pyInsert]
    · rw [List.find?_cons_of_neg _ (by simpa using h1)] at h
      simp only [findIdxNamed, List.findIdx_cons, eraseNamed, if_neg h1]
      rw [cond_eq_if, if_neg (by simpa using h1)]
      simp only [pyInsert, List.take_succ_cons, List.drop_succ_cons,
        List.cons_append]
      have := ih h
      simpa [findIdxNamed, pyInsert] using congrArg (List.cons c) this

theorem mapChildren_comp (f g : List Widget → List Widget) (w : Widget) :
    mapChildren f (mapChildren g w) = mapChildren (fun c => f (g c)) w := by
  cases w
  rfl

/-- A widget path as the operations store it: the raw character string of
`widget.path`, for example "/page1/graph1". -/
abbrev WPath := List Char

/-- Split a stored path at the slashes into child-name segments (the walk
performed by the document's path resolver). -/
def segsOf (p : WPath) : List String :=
  ((p.splitOn '/').filter fun s => s ≠ []).map String.mk

/-- The check of OperationWidgetsDelete.do for one path being a strict
descendant of another: `wp[:len(p)+1] == p + '/'`. -/
def strictDescendOf (wp p : WPath) : Bool :=
  wp.take (p.length + 1) == p ++ ['/']

/-- Stable insertion of a path into a length-sorted list (ties keep the
original order, as Python's stable `sort(key=len)` does). -/
def insertByLen (x : WPath) : List WPath → List WPath
  | [] => [x]
  | y :: ys => if y.length < x.length then y :: insertByLen x ys else x :: y :: ys

/-- Stable sort of the requested paths by length (`widgetpaths.sort(key=len)`;
a stable sort's output is unique, so insertion sort is a faithful model). -/
def sortByLen : List WPath → List WPath
  | [] => []
  | x :: xs => insertByLen x (sortByLen xs)

/-- One step of the pruning loop of OperationWidgetsDelete.do: a path is
dropped when an already-kept (necessarily no-longer/equally-long) path is a
strict ancestor, otherwise it is appended to the kept list. -/
def pruneKept (kept : List WPath) (wp : WPath) : List WPath :=
  if kept.any fun p => strictDescendOf wp p then kept else kept ++ [wp]

/-- The full pruning pass of OperationWidgetsDelete.do: sort by length,
then drop every path with a kept strict ancestor. -/
def prunePaths (paths : List WPath) : List WPath :=
  (sortByLen paths).foldl pruneKept []

/-- Per-widget undo record of a delete: the detached widget object itself,
the parent's path and the index among the parent's children (paths are kept
in split form inside records; the resolver walks segments). -/
structure DelRec where
  oldwidget : Widget
  oldparentpath : List String
  oldindex : Nat

/-- Delete the widget at `segs`: resolve it, record parent path and index,
then `oldparent.removeChild(name)`.  An empty path fails the way Python
does when taking `parent.path` of the root's absent parent. -/
def deleteStep (t : Widget) (segs : List String) : Except Err (DelRec × Widget) :=
  match segs with
  | [] => .error .attrError
  | _ :: _ =>
    match resolveW t segs, resolveW t segs.dropLast with
    | some w, some par =>
      .ok (⟨w, segs.dropLast, findIdxNamed w.name par.children⟩,
        updateAt t segs.dropLast (mapChildren (eraseNamed w.name)))
    | _, _ => .error .keyError

/-- Reinsert one deleted widget at its recorded parent path and index
(`oldparent.addChild(self.oldwidget, index=self.oldindex)`). -/
def undoDeleteStep (r : DelRec) (t : Widget) : Except Err Widget :=
  match resolveW t r.oldparentpath with
  | none => .error .keyError
  | some _ =>
    .ok (updateAt t r.oldparentpath (mapChildren (pyInsert r.oldindex r.oldwidget)))

/-- Run `deleteStep` over all paths in order, accumulating the records. -/
def deleteSteps (t : Widget) : List (List String) → Except Err (List DelRec × Widget)
  | [] => .ok ([], t)
  | segs :: rest =>
    match deleteStep t segs with
    | .error e => .error e
    | .ok (r, t1) =>
      match deleteSteps t1 rest with
      | .error e => .error e
      | .ok (rs, t2) => .ok (r :: rs, t2)

/-- Undo the records in reverse order, the reversed loop of
OperationWidgetsDelete.undo. -/
def undoDeleteSteps : List DelRec → Widget → Except Err Widget
  | [], t => .ok t
  | r :: rest, t =>
    match undoDeleteSteps rest t with
    | .error e => .error e
    | .ok t1 => undoDeleteStep r t1

theorem deleteStep_undo {t : Widget} {segs : List String} {r : DelRec}
    {t1 : Widget} (h : deleteStep t segs = .ok (r, t1)) :
    undoDeleteStep r t1 = .ok t := by
  match segs, h with
  | s :: srest, h =>
    rw [deleteStep] at h
    set segs := s :: srest with hsegs
    cases hw : resolveW t segs with
    | none => rw [hw] at h; exact absurd h (by simp)
    | some w =>
      cases hpar : resolveW t segs.dropLast with
      | none => rw [hw, hpar] at h; exact absurd h (by simp)
      | some par =>
        rw [hw, hpar] at h
        injection h with h
        injection h with hr ht1
        subst hr
        subst ht1
        have hne : segs ≠ [] := by simp [hsegs]
        have hsplit : segs.dropLast ++ [segs.getLast hne] = segs :=
          List.dropLast_append_getLast hne
        have hfind : (par.children.find? fun c => c.name = segs.getLast hne) = some w := by
          have := resolveW_append t segs.dropLast [segs.getLast hne]
          rw [hsplit, hw, hpar] at this
          simpa [resolveW_singleton] using this.symm
        have hwn : w.name = segs.getLast hne := by
          have := List.find?_some hfind
          simpa using this
        have hfindn : (par.children.find? fun c => c.name = w.name) = some w := by
          rw [hwn]
          exact hfind
        have hnamep : ∀ x, (mapChildren (eraseNamed w.name) x).name = x.name :=
          fun x => mapChildren_name _ x
        rw [undoDeleteStep]
        rw [resolveW_updateAt_self hnamep hpar]
        simp only
        rw [updateAt_comp hnamep]
        refine congrArg Except.ok ?_
        refine updateAt_eq_self hpar ?_
        rw [mapChildren_comp]
        cases par with
        | mk n ty st c =>
          simp only [mapChildren, Widget.children] at hfindn ⊢
          rw [pyInsert_eraseNamed hfindn]

mutual

/-- Walk a settings path inside one settings tree (`s = s.get(i)` chained,
then `s.val`); only a leaf at the end of the path is a value. -/
def stGet : SettingTree → List String → Option SVal
  | .leaf v, [] => some v
  | .leaf _, _ :: _ => none
  | .node _, [] => none
  | .node items, s :: rest => stGetItems items s rest

/-- Helper of `stGet`: scan the named items of a settings group. -/
def stGetItems : List (String × SettingTree) → String → List String → Option SVal
  | [], _, _ => none
  | (k, t) :: es, s, rest =>
    if k = s then stGet t rest else stGetItems es s rest

end

mutual

/-- Overwrite the leaf at a settings path (`setting.set(value)`); identity
when the path does not resolve. -/
def stSet : SettingTree → List String → SVal → SettingTree
  | .leaf _, [], v => .leaf v
  | .leaf w, _ :: _, _ => .leaf w
  | .node items, [], _ => .node items
  | .node items, s :: rest, v => .node (stSetItems items s rest v)

/-- Helper of `stSet`: rewrite the matching item of a settings group. -/
def stSetItems : List (String × SettingTree) → String → List String → SVal →
    List (String × SettingTree)
  | [], _, _, _ => []
  | (k, t) :: es, s, rest, v =>
    if k = s then (k, stSet t rest v) :: es else (k, t) :: stSetItems es s rest v

end

theorem stSet_stGet (p : List String) :
    ∀ (t : SettingTree) (old v : SVal), stGet t p = some old →
      stSet (stSet t p v) p old = t := by
  induction p with
  | nil =>
    intro t old v h
    cases t with
    | leaf w =>
      simp only [stGet, Option.some.injEq] at h
      subst h
      rfl
    | node items => simp [stGet] at h
  | cons s rest ih =>
    intro t old v h
    cases t with
    | leaf w => simp [stGet] at h
    | node items =>
      simp only [stGet] at h
      simp only [stSet]
      refine congrArg SettingTree.node ?_
      induction items with
      | nil => simp [stGetItems] at h
      | cons e es ihe =>
        obtain ⟨k, t0⟩ := e
        by_cases hk : k = s
        · simp only [stGetItems, if_pos hk] at h
          simp only [stSetItems, if_pos hk]
          rw [ih t0 old v h]
        · simp only [stGetItems, if_neg hk] at h
          simp only [stSetItems, if_neg hk]
          rw [ihe h]

/-- Does the widget have a child with the given name?  Decides whether a
settings-path segment descends into a child widget or into the settings. -/
def hasChildNamed (c : List Widget) (s : String) : Bool :=
  c.any fun x => x.name = s

mutual

/-- Modelled from the spec: `document.resolveFullSettingPath` walks down
child widgets while path segments name children, then resolves the
remainder inside the widget's settings. -/
def resolveSP : Widget → List String → Option SVal
  | _, [] => none
  | .mk _ _ st c, p :: rest =>
    if hasChildNamed c p then resolveSPC c p rest else stGetItems st p rest

/-- Helper of `resolveSP`: descend into the first child with the name. -/
def resolveSPC : List Widget → String → List String → Option SVal
  | [], _, _ => none
  | c :: cs, p, rest =>
    if c.name = p then resolveSP c rest else resolveSPC cs p rest

end

mutual

/-- Overwrite the setting at a full setting path (resolution as in
`resolveSP`); identity when the path does not resolve. -/
def updateSP : Widget → List String → SVal → Widget
  | w, [], _ => w
  | .mk n t st c, p :: rest, v =>
    if hasChildNamed c p then .mk n t st (updateSPC c p rest v)
    else .mk n t (stSetItems st p rest v) c

/-- Helper of `updateSP`: rewrite the first child with the name. -/
def updateSPC : List Widget → String → List String → SVal → List Widget
  | [], _, _, _ => []
  | c :: cs, p, rest, v =>
    if c.name = p then updateSP c rest v :: cs else c :: updateSPC cs p rest v

end

theorem updateSP_name (w : Widget) (p : List String) (v : SVal) :
    (updateSP w p v).name = w.name := by
  cases p with
  | nil => simp [updateSP]
  | cons s rest =>
    cases w with
    | mk n t st c =>
      rw [updateSP]
      by_cases h : hasChildNamed c s
      · rw [if_pos h]
        rfl
      · rw [if_neg h]
        rfl

theorem updateSPC_names (c : List Widget) (p : String) (rest : List String)
    (v : SVal) : (updateSPC c p rest v).map Widget.name = c.map Widget.name := by
  induction c with
  | nil => rfl
  | cons c0 cs ih =>
    by_cases h : c0.name = p
    · simp [updateSPC, h, updateSP_name]
    · simp [updateSPC, h, ih]

theorem hasChildNamed_updateSPC (c : List Widget) (p q : String)
    (rest : List String) (v : SVal) :
    hasChildNamed (updateSPC c p rest v) q = hasChildNamed c q := by
  induction c with
  | nil => rfl
  | cons c0 cs ih =>
    by_cases h : c0.name = p
    · simp [updateSPC, h, hasChildNamed, List.any_cons, updateSP_name]
    · have ih2 : (updateSPC cs p rest v).any (fun x => x.name = q) =
        cs.any fun x => x.name = q := ih
      simp [updateSPC, h, hasChildNamed, List.any_cons, ih2]

theorem updateSP_resolveSP (p : List String) :
    ∀ (w : Widget) (old v : SVal), resolveSP w p = some old →
      updateSP (updateSP w p v) p old = w := by
  induction p with
  | nil => intro w old v h; simp [resolveSP] at h
  | cons s rest ih =>
    intro w old v h
    cases w with
    | mk n t st c =>
      rw [resolveSP] at h
      by_cases hc : hasChildNamed c s
      · rw [if_pos hc] at h
        rw [updateSP, if_pos hc, updateSP,
          if_pos ((hasChildNamed_updateSPC c s s rest v).trans hc)]
        refine congrArg (Widget.mk n t st) ?_
        induction c with
        | nil => simp [resolveSPC] at h
        | cons c0 cs ihc =>
          by_cases h0 : c0.name = s
          · rw [resolveSPC, if_pos h0] at h
            rw [updateSPC, if_pos h0, updateSPC,
              if_pos ((updateSP_name c0 rest v).trans h0)]
            rw [ih c0 old v h]
          · rw [resolveSPC, if_neg h0] at h
            have hcs : hasChildNamed cs s = true := by
              simpa [hasChildNamed, h0] using hc
            rw [updateSPC, if_neg h0, updateSPC, if_neg h0, ihc h hcs]
      · rw [if_neg hc] at h
        rw [updateSP, if_neg hc, updateSP, if_neg hc]
        refine congrArg (fun x => Widget.mk n t x c) ?_
        have := stSet_stGet (s :: rest) (.node st) old v (by simpa [stGet] using h)
        simpa [stSet, SettingTree.node.injEq] using this

/-- Swap two positions of a list (identity when either is out of range). -/
def swapIdx {α : Type} (l : List α) (i j : Nat) : List α :=
  match l[i]?, l[j]? with
  | some a, some b => (l.set i b).set j a
  | _, _ => l

theorem swapIdx_length {α : Type} {l : List α} {i j : Nat}
    (hi : i < l.length) (hj : j < l.length) :
    (swapIdx l i j).length = l.length := by
  rw [swapIdx, List.getElem?_eq_getElem hi, List.getElem?_eq_getElem hj]
  simp [List.length_set]

theorem swapIdx_getElem? {α : Type} {l : List α} {i j : Nat}
    (hi : i < l.length) (hj : j < l.length) (n : Nat) :
    (swapIdx l i j)[n]? = if n = j then l[i]? else if n = i then l[j]? else l[n]? := by
  rw [swapIdx, List.getElem?_eq_getElem hi, List.getElem?_eq_getElem hj]
  rw [List.getElem?_set, List.getElem?_set, List.length_set]
  by_cases hnj : n = j
  · simp [hnj, hj, List.getElem?_eq_getElem hi]
  · by_cases hni : n = i
    · by_cases hij : i = j
      · exact absurd (hni.trans hij) hnj
      · simp [hni, hnj, Ne.symm hnj, hi, hij, Ne.symm hij,
          List.getElem?_eq_getElem hj]
    · simp [Ne.symm hni, Ne.symm hnj, hni, hnj]

theorem setList_getElem {α : Type} {l : List α} {n : Nat} {v : α}
    (h : l[n]? = some v) : l.set n v = l := by
  induction l generalizing n with
  | nil => simp at h
  | cons a as ih =>
    cases n with
    | zero =>
      have : a = v := by simpa using h
      simp [this]
    | succ m =>
      rw [List.set_cons_succ]
      rw [ih (by simpa using h)]

theorem swapIdx_self {α : Type} (l : List α) (i : Nat) : swapIdx l i i = l := by
  rw [swapIdx]
  cases h : l[i]? with
  | none => rfl
  | some a =>
    dsimp only
    rw [List.set_set, setList_getElem h]

theorem swapIdx_swapIdx {α : Type} {l : List α} {i j : Nat}
    (hi : i < l.length) (hj : j < l.length) :
    swapIdx (swapIdx l i j) j i = l := by
  have hlen := swapIdx_length hi hj
  refine List.ext_getElem? fun n => ?_
  rw [swapIdx_getElem? (hlen ▸ hj) (hlen ▸ hi) n]
  rw [swapIdx_getElem? hi hj j, swapIdx_getElem? hi hj i, swapIdx_getElem? hi hj n]
  by_cases hni : n = i <;> by_cases hnj : n = j <;> by_cases hij : i = j <;>
    simp_all

theorem find?_isSome_of_findIdx_lt {α : Type} {p : α → Bool} {l : List α}
    (h : List.findIdx p l < l.length) : (l.find? p).isSome := by
  induction l with
  | nil => simp at h
  | cons c cs ih =>
    by_cases hc : p c
    · simp [List.find?_cons_of_pos _ hc]
    · rw [List.find?_cons_of_neg _ hc]
      refine ih ?_
      rw [List.findIdx_cons, cond_eq_if, if_neg (by simpa using hc)] at h
      simpa using Nat.lt_of_succ_lt_succ h

theorem findIdxNamed_swapIdx {l : List Widget} {nm : String} {i j : Nat}
    (hnd : (l.map Widget.name).Nodup)
    (hfi : findIdxNamed nm l = i) (hi : i < l.length) (hj : j < l.length) :
    findIdxNamed nm (swapIdx l i j) = j := by
  by_cases hij : i = j
  · subst hij
    rw [swapIdx_self]
    exact hfi
  have hlen : (swapIdx l i j).length = l.length := swapIdx_length hi hj
  have hfi2 : List.findIdx (fun c => c.name = nm) l = i := hfi
  have hnames : ∀ (a b : Nat) (ha : a < l.length) (hb : b < l.length),
      a ≠ b → l[a].name ≠ l[b].name := by
    intro a b ha hb hab hEq
    have ha2 : a < (l.map Widget.name).length := by simpa using ha
    have hb2 : b < (l.map Widget.name).length := by simpa using hb
    refine hab ((@List.Nodup.getElem_inj_iff _ _ hnd a ha2 b hb2).mp ?_)
    rw [List.getElem_map, List.getElem_map]
    exact hEq
  have hw : List.findIdx (fun c => c.name = nm) l < l.length := by omega
  have hpi : l[i].name = nm := by
    have h0 := @List.findIdx_getElem _ (fun c => c.name = nm) l hw
    simp only [hfi2] at h0
    simpa using h0
  have hj2 : j < (swapIdx l i j).length := by omega
  have hA : (swapIdx l i j)[j] = l[i] := by
    have h1 : (swapIdx l i j)[j]? = some l[i] := by
      rw [swapIdx_getElem? hi hj j, if_pos rfl, List.getElem?_eq_getElem hi]
    have h2 := List.getElem?_eq_getElem hj2
    rw [h1] at h2
    exact (Option.some.inj h2).symm
  rw [findIdxNamed]
  refine (List.findIdx_eq hj2).mpr ⟨?_, ?_⟩
  · rw [hA]
    simpa using hpi
  · intro m hm
    have hm2 : m < l.length := by omega
    have hm3 : m < (swapIdx l i j).length := by omega
    have hmj : m ≠ j := Nat.ne_of_lt hm
    by_cases hmi : m = i
    · have hB : (swapIdx l i j)[m] = l[j] := by
        have h1 : (swapIdx l i j)[m]? = some l[j] := by
          rw [swapIdx_getElem? hi hj m, if_neg hmj, if_pos hmi,
            List.getElem?_eq_getElem hj]
        have h2 := List.getElem?_eq_getElem hm3
        rw [h1] at h2
        exact (Option.some.inj h2).symm
      rw [hB]
      simpa using fun hh => hnames j i hj hi (Ne.symm hij) (hh.trans hpi.symm)
    · have hB : (swapIdx l i j)[m] = l[m] := by
        have h1 : (swapIdx l i j)[m]? = some l[m] := by
          rw [swapIdx_getElem? hi hj m, if_neg hmj, if_neg hmi,
            List.getElem?_eq_getElem hm2]
        have h2 := List.getElem?_eq_getElem hm3
        rw [h1] at h2
        exact (Option.some.inj h2).symm
      rw [hB]
      by_cases hlt : m < i
      · exact ((List.findIdx_eq hi).mp hfi2).2 m hlt
      · simpa using fun hh => hnames m i hm2 hi hmi (hh.trans hpi.symm)

/-- Modelled from the spec: `parent.moveChild(widget, direction)` swaps the
widget with its adjacent sibling in the given direction and reports whether
the move happened; at a list boundary it fails silently and reports false.
The widget is addressed by name (sibling names are unique in veusz). -/
def moveChildL (l : List Widget) (nm : String) (dir : Int) : List Widget × Bool :=
  let i := findIdxNamed nm l
  let j : Int := (i : Int) + dir
  if 0 ≤ j ∧ j < (l.length : Int) ∧ i < l.length then
    (swapIdx l i j.toNat, true)
  else (l, false)

theorem moveChildL_inv {l : List Widget} {nm : String} {dir : Int}
    {l2 : List Widget} (hnd : (l.map Widget.name).Nodup)
    (h : moveChildL l nm dir = (l2, true)) :
    moveChildL l2 nm (-dir) = (l, true) := by
  rw [moveChildL] at h
  by_cases hcond : 0 ≤ (findIdxNamed nm l : Int) + dir ∧
      (findIdxNamed nm l : Int) + dir < (l.length : Int) ∧
      findIdxNamed nm l < l.length
  · rw [if_pos hcond] at h
    obtain ⟨hc1, hc2, hc3⟩ := hcond
    injection h with hl2 _
    subst hl2
    set i := findIdxNamed nm l with hidef
    have hjnat : (((i : Int) + dir).toNat : Int) = (i : Int) + dir :=
      Int.toNat_of_nonneg hc1
    have hjlt : ((i : Int) + dir).toNat < l.length := by omega
    have hfind2 : findIdxNamed nm (swapIdx l i ((i : Int) + dir).toNat) =
        ((i : Int) + dir).toNat :=
      findIdxNamed_swapIdx hnd hidef.symm hc3 hjlt
    rw [moveChildL]
    have hlen2 : (swapIdx l i ((i : Int) + dir).toNat).length = l.length :=
      swapIdx_length hc3 hjlt
    rw [if_pos (by rw [hfind2, hlen2]; omega)]
    refine Prod.ext ?_ rfl
    simp only [hfind2, hlen2]
    have hback : ((((i : Int) + dir).toNat : Int) + -dir).toNat = i := by omega
    rw [hback]
    exact swapIdx_swapIdx hc3 hjlt
  · rw [if_neg hcond] at h
    injection h with _ hfalse
    exact absurd hfalse.symm (by simp)

/-- Modelled from the spec: `widget.rename(newname)` sets the widget's
name; the primitive itself guarantees sibling-name uniqueness, which the
operations assume. -/
def Widget.rename (newname : String) : Widget → Widget
  | .mk _ t s c => .mk newname t s c

theorem Widget.rename_name (newname : String) (w : Widget) :
    (Widget.rename newname w).name = newname := by
  cases w
  rfl

/-- Is the dataset linked to the given file
(`ds.linked is not None and ds.linked.filename == filename`)? -/
def linkedToFile (fn : String) (ds : Dataset) : Bool :=
  match ds.linked with
  | some lk => lk.filename = fn
  | none => false

/-- The entry rewrite of OperationDatasetUnlinkByFile.do: every dataset
linked to the file loses its link. -/
def stripFileLinksL (fn : String) (l : List (String × Dataset)) :
    List (String × Dataset) :=
  l.map fun e => if linkedToFile fn e.2 then (e.1, { e.2 with linked := none }) else e

theorem stripFileLinksL_sorted (fn : String) {l : List (String × Dataset)}
    (h : EntriesSorted l) : EntriesSorted (stripFileLinksL fn l) := by
  rw [EntriesSorted, stripFileLinksL, List.pairwise_map]
  refine h.imp_of_mem ?_
  intro a b _ _ hab
  by_cases h1 : linkedToFile fn a.2 <;> by_cases h2 : linkedToFile fn b.2 <;>
    simpa [h1, h2] using hab

/-- The links saved by OperationDatasetUnlinkByFile.do, keyed by dataset
name. -/
def linksOfFileL (fn : String) (l : List (String × Dataset)) :
    List (String × Link) :=
  l.filterMap fun e =>
    match e.2.linked with
    | some lk => if lk.filename = fn then some (e.1, lk) else none
    | none => none

theorem mem_linksOfFileL {fn : String} {l : List (String × Dataset)}
    {b : String × Link} (h : b ∈ linksOfFileL fn l) : ∃ ds, (b.1, ds) ∈ l := by
  rw [linksOfFileL, List.mem_filterMap] at h
  obtain ⟨a, ha, hfa⟩ := h
  refine ⟨a.2, ?_⟩
  cases hl : a.2.linked with
  | none => rw [hl] at hfa; exact absurd hfa (by simp)
  | some lk =>
    rw [hl] at hfa
    dsimp only at hfa
    by_cases hf : lk.filename = fn
    · rw [if_pos hf] at hfa
      have : a.1 = b.1 := by
        injection hfa with hfa2
        rw [← hfa2]
      rw [← this]
      simpa using ha
    · rw [if_neg hf] at hfa
      exact absurd hfa (by simp)

theorem linksOfFileL_sorted (fn : String) {l : List (String × Dataset)}
    (h : EntriesSorted l) : EntriesSorted (linksOfFileL fn l) := by
  induction l with
  | nil => exact List.Pairwise.nil
  | cons e es ih =>
    rcases h with _ | ⟨he, hes⟩
    rw [linksOfFileL, List.filterMap_cons]
    cases hl : e.2.linked with
    | none =>
      dsimp only
      exact ih hes
    | some lk =>
      dsimp only
      by_cases hf : lk.filename = fn
      · rw [if_pos hf]
        dsimp only
        refine List.Pairwise.cons ?_ (ih hes)
        intro b hb
        obtain ⟨ds, hds⟩ := mem_linksOfFileL hb
        exact he (b.1, ds) hds
      · rw [if_neg hf]
        dsimp only
        exact ih hes

/-- One column after `ds.deleteRows(row, numrows)` (modelled from the
spec). -/
def colDeleteRows (row n : Nat) (col : List Int) : List Int :=
  col.take row ++ col.drop (row + n)

/-- The removed contents of one column, captured for undo. -/
def colSavedRows (row n : Nat) (col : List Int) : List Int :=
  (col.drop row).take n

/-- One column after `ds.insertRows(row, numrows, saved)` (modelled from
the spec). -/
def colInsertRows (row : Nat) (xs col : List Int) : List Int :=
  col.take row ++ xs ++ col.drop row

/-- The per-column row contents returned by `deleteRows` and passed back to
`insertRows`; an absent entry means the column is filled with blank cells
(`{}` in OperationDatasetInsertRow.do).  Blank (NaN) cells are modelled as
zero; no claim depends on the fill value. -/
structure RowData where
  data : Option (List Int)
  serr : Option (List Int)
  perr : Option (List Int)
  nerr : Option (List Int)
  deriving DecidableEq

/-- The empty row-data dict `{}`. -/
def RowData.empty : RowData :=
  ⟨none, none, none, none⟩

/-- Modelled from the spec: `ds.deleteRows(row, n)` removes the row range
from every present column and returns the removed contents. -/
def Dataset.deleteRows (ds : Dataset) (row n : Nat) : Dataset × RowData :=
  ({ ds with
      data := ds.data.map (colDeleteRows row n)
      serr := ds.serr.map (colDeleteRows row n)
      perr := ds.perr.map (colDeleteRows row n)
      nerr := ds.nerr.map (colDeleteRows row n) },
   ⟨ds.data.map (colSavedRows row n), ds.serr.map (colSavedRows row n),
    ds.perr.map (colSavedRows row n), ds.nerr.map (colSavedRows row n)⟩)

/-- Modelled from the spec: `ds.insertRows(row, n, saved)` inserts the
saved contents (blanks for columns without saved data) into every present
column. -/
def Dataset.insertRows (ds : Dataset) (row n : Nat) (rd : RowData) : Dataset :=
  { ds with
    data := ds.data.map (colInsertRows row
      (match rd.data with | some xs => xs | none => List.replicate n 0))
    serr := ds.serr.map (colInsertRows row
      (match rd.serr with | some xs => xs | none => List.replicate n 0))
    perr := ds.perr.map (colInsertRows row
      (match rd.perr with | some xs => xs | none => List.replicate n 0))
    nerr := ds.nerr.map (colInsertRows row
      (match rd.nerr with | some xs => xs | none => List.replicate n 0)) }

/-- Read the value/error column used by OperationDatasetSetVal
(`getattr(ds, columnname)` then indexing: an invalid name raises
AttributeError, an absent (None) column TypeError on indexing). -/
def Dataset.colForVal (ds : Dataset) (col : String) : Except Err (List Int) :=
  if col = "data" then
    match ds.data with
    | some xs => .ok xs
    | none => .error .typeError
  else if col = "serr" then
    match ds.serr with
    | some xs => .ok xs
    | none => .error .typeError
  else if col = "perr" then
    match ds.perr with
    | some xs => .ok xs
    | none => .error .typeError
  else if col = "nerr" then
    match ds.nerr with
    | some xs => .ok xs
    | none => .error .typeError
  else .error .attrError

/-- Write back the column changed by OperationDatasetSetVal
(`ds.changeValues(columnname, datacol)`, modelled from the spec). -/
def Dataset.setColForVal (ds : Dataset) (col : String) (xs : List Int) : Dataset :=
  if col = "data" then { ds with data := some xs }
  else if col = "serr" then { ds with serr := some xs }
  else if col = "perr" then { ds with perr := some xs }
  else if col = "nerr" then { ds with nerr := some xs }
  else ds

/-- Set one of the dataset's columns (`setattr(ds, columnname, ...)` in
OperationDatasetAddColumn): the four documented columns `data`, `serr`,
`perr` and `nerr` all accept the assignment, including `data` and
including the value `None`; `none` as a result signals a column name the
dataset object rejects with AttributeError. -/
def Dataset.errColSet (ds : Dataset) (col : String) (v : Option (List Int)) :
    Option Dataset :=
  if col = "data" then some { ds with data := v }
  else if col = "serr" then some { ds with serr := v }
  else if col = "perr" then some { ds with perr := v }
  else if col = "nerr" then some { ds with nerr := v }
  else none

/-- Modelled from the spec: `dataset.returnCopy()` returns a frozen copy of
the values, not linked to any source. -/
def Dataset.returnCopy (ds : Dataset) : Dataset :=
  { ds with linked := none }

/-- Modelled from the spec: `document.renameDataset(old, new)` re-keys the
dataset from the old to the new name. -/
def renameDatasetMap (m : Smap String Dataset) (old new : String) :
    Smap String Dataset :=
  match m.lookup old with
  | some ds => (m.erase old).insert new ds
  | none => m

/-- The `document.batchHistory` call: `true` models passing an operation
(opening a grouping transaction), `false` models passing `None`. -/
def Doc.batchHistory (d : Doc) (opened : Bool) : Doc :=
  { d with batchOpen := opened }

/-- Entry filter on a dict, keeping the canonical form. -/
def Smap.filterEntries {K V : Type} [LinearOrder K] (m : Smap K V)
    (p : K × V → Bool) : Smap K V :=
  ⟨m.entries.filter p, List.Pairwise.filter p m.sorted⟩

/-- The links collected by OperationDatasetUnlinkByFile.do, keyed by name. -/
def Smap.linksOfFile (m : Smap String Dataset) (fn : String) : Smap String Link :=
  ⟨linksOfFileL fn m.entries, linksOfFileL_sorted fn m.sorted⟩

/-- The dataset map after OperationDatasetUnlinkByFile.do stripped the
matching links. -/
def Smap.stripFileLinks (m : Smap String Dataset) (fn : String) :
    Smap String Dataset :=
  ⟨stripFileLinksL fn m.entries, stripFileLinksL_sorted fn m.sorted⟩

/-- The loop of OperationDataTag.do: add the tag where absent, recording
the names actually changed; `document.data[name]` raises KeyError on a
missing name after the earlier names were already tagged. -/
def dataTagLoop (tag : String) : List String → List String → Smap String Dataset →
    List String × Smap String Dataset × Option Err
  | [], acc, m => (acc, m, none)
  | n :: rest, acc, m =>
    match m.lookup n with
    | none => (acc, m, some .keyError)
    | some ds =>
      if tag ∈ ds.tags then dataTagLoop tag rest acc m
      else dataTagLoop tag rest (acc ++ [n])
        (m.insert n { ds with tags := insert tag ds.tags })

/-- The loop of OperationDataTag.undo and OperationDataUntag.do: remove the
tag from each listed dataset; a missing name or an absent tag raises
KeyError mid-loop (`set.remove`). -/
def dataTagRemoveLoop (tag : String) : List String → Smap String Dataset →
    Smap String Dataset × Option Err
  | [], m => (m, none)
  | n :: rest, m =>
    match m.lookup n with
    | none => (m, some .keyError)
    | some ds =>
      if tag ∈ ds.tags then
        dataTagRemoveLoop tag rest (m.insert n { ds with tags := ds.tags.erase tag })
      else (m, some .keyError)

/-- The loop of OperationDataUntag.undo: put the tag back on each listed
dataset (`set.add` never raises; a missing name still raises KeyError). -/
def dataUntagUndoLoop (tag : String) : List String → Smap String Dataset →
    Smap String Dataset × Option Err
  | [], m => (m, none)
  | n :: rest, m =>
    match m.lookup n with
    | none => (m, some .keyError)
    | some ds =>
      dataUntagUndoLoop tag rest (m.insert n { ds with tags := insert tag ds.tags })

/-- The loop of OperationDatasetUnlinkByFile.undo on raw entries: restore
each saved link, silently skipping names no longer in the document
(try/except KeyError). -/
def restoreLinksLoopL : List (String × Link) → List (String × Dataset) →
    List (String × Dataset)
  | [], m => m
  | (n, lk) :: rest, m =>
    restoreLinksLoopL rest (adjustL n (fun ds => { ds with linked := some lk }) m)

theorem restoreLinksLoopL_sorted (L : List (String × Link))
    {m : List (String × Dataset)} (h : EntriesSorted m) :
    EntriesSorted (restoreLinksLoopL L m) := by
  induction L generalizing m with
  | nil => exact h
  | cons e rest ih =>
    obtain ⟨n, lk⟩ := e
    exact ih (adjustL_sorted n _ h)

/-- The loop of OperationDatasetUnlinkByFile.undo. -/
def Smap.restoreLinks (m : Smap String Dataset) (L : List (String × Link)) :
    Smap String Dataset :=
  ⟨restoreLinksLoopL L m.entries, restoreLinksLoopL_sorted L m.sorted⟩

/-- The loop of OperationDatasetDeleteByFile.undo on raw entries: put every
removed dataset back (`document.setData`). -/
def restoreDataLoopL : List (String × Dataset) → List (String × Dataset) →
    List (String × Dataset)
  | [], m => m
  | (n, ds) :: rest, m => restoreDataLoopL rest (insertL n ds m)

theorem restoreDataLoopL_sorted (L : List (String × Dataset))
    {m : List (String × Dataset)} (h : EntriesSorted m) :
    EntriesSorted (restoreDataLoopL L m) := by
  induction L generalizing m with
  | nil => exact h
  | cons e rest ih =>
    obtain ⟨n, ds⟩ := e
    exact ih (insertL_sorted n ds h)

/-- The loop of OperationDatasetDeleteByFile.undo. -/
def Smap.restoreData (m : Smap String Dataset) (L : List (String × Dataset)) :
    Smap String Dataset :=
  ⟨restoreDataLoopL L m.entries, restoreDataLoopL_sorted L m.sorted⟩

/-- The operation classes of operations.py.  Each constructor carries the
construction arguments plus, as `Option`s that are `none` before `do` ran,
the state the class stores on `self` during `do` (undoing an operation
whose `do` never ran fails the way Python's missing-attribute access
does).  Operations whose behaviour hangs on collaborators outside this
repository's sources (widget factory, expression evaluation, plugins,
2D datasets) are outside the embedding. -/
inductive Op where
  | settingSet (settingpath : List String) (value : SVal) (oldvalue : Option SVal)
  | widgetRename (widgetpath : List String) (newname : String)
      (st : Option (String × List String))
  | widgetDelete (widgetpath : List String) (st : Option DelRec)
  | widgetsDelete (widgetpaths : List WPath) (st : Option (List DelRec))
  | widgetMoveUpDown (widgetpath : List String) (direction : Int)
      (st : Option (Bool × List String))
  | datasetSet (datasetname : String) (dataset : Dataset)
      (olddata : Option (Option Dataset))
  | datasetDelete (datasetname : String) (olddata : Option Dataset)
  | datasetRename (oldname newname : String)
      (st : Option (Option String × Option (String × String)))
  | datasetDuplicate (origname duplname : String) (olddata : Option (Option Dataset))
  | datasetUnlinkFile (datasetname : String) (oldfilelink : Option (Option Link))
  | datasetUnlinkRelation (datasetname : String) (olddataset : Option Dataset)
  | datasetUnlinkByFile (filename : String) (oldlinks : Option (Smap String Link))
  | datasetDeleteByFile (filename : String)
      (olddatasets : Option (Smap String Dataset))
  | dataTag (tag : String) (datasetnames : List String)
      (removetags : Option (List String))
  | dataUntag (tag : String) (datasetnames : List String)
  | datasetAddColumn (datasetname columnname : String)
  | datasetSetVal (datasetname columnname : String) (row : Nat) (val : Int)
      (oldval : Option Int)
  | datasetDeleteRow (datasetname : String) (row numrows : Nat)
      (saveddata : Option RowData)
  | datasetInsertRow (datasetname : String) (row numrows : Nat)
  | setCustom (customvals : List (String × String × String))
      (oldval : Option (List (String × String × String)))
  | multiple (operations : List Op)

mutual

/-- The `do(document)` methods (named `doOp`: `do` is reserved in Lean).
Returns the operation with its captured undo state, the mutated document,
and the raised exception when one occurred; on an exception the document
keeps whatever partial mutation had happened, as Python leaves it. -/
def Op.doOp : Op → Doc → Op × Doc × Option Err
  | .settingSet spath value st0, d =>
    match resolveSP d.basewidget spath with
    | none => (.settingSet spath value st0, d, some .keyError)
    | some sv =>
      let old := match sv with
        | .ref r => SVal.ref r
        | .lit v => SVal.lit v
      (.settingSet spath value (some old),
        { d with basewidget := updateSP d.basewidget spath value }, none)
  | .widgetRename wpath newname st0, d =>
    match resolveW d.basewidget wpath with
    | none => (.widgetRename wpath newname st0, d, some .keyError)
    | some w =>
      (.widgetRename wpath newname (some (w.name, wpath.dropLast ++ [newname])),
        { d with basewidget := updateAt d.basewidget wpath (Widget.rename newname) },
        none)
  | .widgetDelete wpath st0, d =>
    match deleteStep d.basewidget wpath with
    | .error e => (.widgetDelete wpath st0, d, some e)
    | .ok (r, t2) => (.widgetDelete wpath (some r), { d with basewidget := t2 }, none)
  | .widgetsDelete wpaths st0, d =>
    match deleteSteps d.basewidget ((prunePaths wpaths).map segsOf) with
    | .error e => (.widgetsDelete wpaths st0, d, some e)
    | .ok (rs, t2) =>
      (.widgetsDelete wpaths (some rs), { d with basewidget := t2 }, none)
  | .widgetMoveUpDown wpath dir st0, d =>
    match resolveW d.basewidget wpath with
    | none => (.widgetMoveUpDown wpath dir st0, d, some .keyError)
    | some w =>
      if wpath.isEmpty then (.widgetMoveUpDown wpath dir st0, d, some .attrError)
      else
        match resolveW d.basewidget wpath.dropLast with
        | none => (.widgetMoveUpDown wpath dir st0, d, some .keyError)
        | some par =>
          let t2 := updateAt d.basewidget wpath.dropLast
            (mapChildren fun c => (moveChildL c w.name dir).1)
          (.widgetMoveUpDown wpath dir
              (some ((moveChildL par.children w.name dir).2, wpath)),
            { d with basewidget := t2 }, none)
  | .datasetSet name ds _, d =>
    (.datasetSet name ds (some (d.data.lookup name)),
      { d with data := d.data.insert name ds }, none)
  | .datasetDelete name st0, d =>
    match d.data.lookup name with
    | none => (.datasetDelete name st0, d, some .keyError)
    | some ds =>
      (.datasetDelete name (some ds), { d with data := d.data.erase name }, none)
  | .datasetRename oldname newname st0, d =>
    match d.data.lookup oldname with
    | none => (.datasetRename oldname newname st0, d, some .keyError)
    | some ds =>
      match ds.linked with
      | none =>
        (.datasetRename oldname newname (some (none, none)),
          { d with data := renameDatasetMap d.data oldname newname }, none)
      | some lk =>
        let r0 := match lk.params.renames with
          | none => Smap.empty
          | some r => r
        let found := r0.entries.find? fun e => e.2 = oldname
        let origname := match found with
          | some e => e.1
          | none => oldname
        let ds2 := { ds with linked := some { lk with params :=
          { renames := some (r0.insert origname newname) } } }
        (.datasetRename oldname newname (some (some origname, found)),
          { d with data :=
            renameDatasetMap (d.data.insert oldname ds2) oldname newname },
          none)
  | .datasetDuplicate origname duplname _, d =>
    let st1 := some (d.data.lookup duplname)
    match d.data.lookup origname with
    | none => (.datasetDuplicate origname duplname st1, d, some .keyError)
    | some ds =>
      (.datasetDuplicate origname duplname st1,
        { d with data := d.data.insert duplname ds.returnCopy }, none)
  | .datasetUnlinkFile name st0, d =>
    match d.data.lookup name with
    | none => (.datasetUnlinkFile name st0, d, some .keyError)
    | some ds =>
      (.datasetUnlinkFile name (some ds.linked),
        { d with data := d.data.insert name { ds with linked := none } }, none)
  | .datasetUnlinkRelation name st0, d =>
    match d.data.lookup name with
    | none => (.datasetUnlinkRelation name st0, d, some .keyError)
    | some ds =>
      (.datasetUnlinkRelation name (some ds),
        { d with data := d.data.insert name ds.returnCopy }, none)
  | .datasetUnlinkByFile fn _, d =>
    (.datasetUnlinkByFile fn (some (d.data.linksOfFile fn)),
      { d with data := d.data.stripFileLinks fn }, none)
  | .datasetDeleteByFile fn _, d =>
    (.datasetDeleteByFile fn
        (some (d.data.filterEntries fun e => linkedToFile fn e.2)),
      { d with data := d.data.filterEntries fun e => ! linkedToFile fn e.2 },
      none)
  | .dataTag tag names _, d =>
    let res := dataTagLoop tag names [] d.data
    (.dataTag tag names (some res.1), { d with data := res.2.1 }, res.2.2)
  | .dataUntag tag names, d =>
    let res := dataTagRemoveLoop tag names d.data
    (.dataUntag tag names, { d with data := res.1 }, res.2)
  | .datasetAddColumn name col, d =>
    match d.data.lookup name with
    | none => (.datasetAddColumn name col, d, some .keyError)
    | some ds =>
      match ds.data with
      | none => (.datasetAddColumn name col, d, some .runtimeError)
      | some datacol =>
        match ds.errColSet col (some (List.replicate datacol.length 0)) with
        | none => (.datasetAddColumn name col, d, some .runtimeError)
        | some ds2 =>
          (.datasetAddColumn name col,
            { d with data := d.data.insert name ds2 }, none)
  | .datasetSetVal name col row val st0, d =>
    match d.data.lookup name with
    | none => (.datasetSetVal name col row val st0, d, some .keyError)
    | some ds =>
      match ds.colForVal col with
      | .error e => (.datasetSetVal name col row val st0, d, some e)
      | .ok xs =>
        match xs[row]? with
        | none => (.datasetSetVal name col row val st0, d, some .indexError)
        | some oldv =>
          (.datasetSetVal name col row val (some oldv),
            { d with data := d.data.insert name (ds.setColForVal col (xs.set row val)) },
            none)
  | .datasetDeleteRow name row numrows st0, d =>
    match d.data.lookup name with
    | none => (.datasetDeleteRow name row numrows st0, d, some .keyError)
    | some ds =>
      let res := ds.deleteRows row numrows
      (.datasetDeleteRow name row numrows (some res.2),
        { d with data := d.data.insert name res.1 }, none)
  | .datasetInsertRow name row numrows, d =>
    match d.data.lookup name with
    | none => (.datasetInsertRow name row numrows, d, some .keyError)
    | some ds =>
      (.datasetInsertRow name row numrows,
        { d with data := d.data.insert name (ds.insertRows row numrows RowData.empty) },
        none)
  | .setCustom vals _, d =>
    (.setCustom vals (some d.customs), { d with customs := vals }, none)
  | .multiple ops, d =>
    let res := Op.doList ops d
    (.multiple res.1, res.2.1, res.2.2)

/-- The loop of OperationMultiple.do: run the children in order, halting at
the first raised exception with the earlier children left applied. -/
def Op.doList : List Op → Doc → List Op × Doc × Option Err
  | [], d => ([], d, none)
  | op :: rest, d =>
    match Op.doOp op d with
    | (op2, d2, some e) => (op2 :: rest, d2, some e)
    | (op2, d2, none) =>
      let res := Op.doList rest d2
      (op2 :: res.1, res.2.1, res.2.2)

end

mutual

/-- The `undo(document)` methods.  Accessing undo state that `do` never
stored fails like Python's AttributeError. -/
def Op.undo : Op → Doc → Doc × Option Err
  | .settingSet spath _ st, d =>
    match st with
    | none => (d, some .attrError)
    | some old =>
      match resolveSP d.basewidget spath with
      | none => (d, some .keyError)
      | some _ => ({ d with basewidget := updateSP d.basewidget spath old }, none)
  | .widgetRename _ _ st, d =>
    match st with
    | none => (d, some .attrError)
    | some (oldname, newpath) =>
      match resolveW d.basewidget newpath with
      | none => (d, some .keyError)
      | some _ =>
        ({ d with basewidget := updateAt d.basewidget newpath (Widget.rename oldname) },
          none)
  | .widgetDelete _ st, d =>
    match st with
    | none => (d, some .attrError)
    | some r =>
      match undoDeleteStep r d.basewidget with
      | .error e => (d, some e)
      | .ok t2 => ({ d with basewidget := t2 }, none)
  | .widgetsDelete _ st, d =>
    match st with
    | none => (d, some .attrError)
    | some rs =>
      match undoDeleteSteps rs d.basewidget with
      | .error e => (d, some e)
      | .ok t2 => ({ d with basewidget := t2 }, none)
  | .widgetMoveUpDown _ dir st, d =>
    match st with
    | none => (d, some .attrError)
    | some (false, _) => (d, none)
    | some (true, newpath) =>
      match resolveW d.basewidget newpath with
      | none => (d, some .keyError)
      | some w =>
        if newpath.isEmpty then (d, some .attrError)
        else
          let t2 := updateAt d.basewidget newpath.dropLast
            (mapChildren fun c => (moveChildL c w.name (-dir)).1)
          ({ d with basewidget := t2 }, none)
  | .datasetSet name _ st, d =>
    match st with
    | none => (d, some .attrError)
    | some old =>
      match d.data.lookup name with
      | none => (d, some .keyError)
      | some _ =>
        let m1 := d.data.erase name
        match old with
        | none => ({ d with data := m1 }, none)
        | some o => ({ d with data := m1.insert name o }, none)
  | .datasetDelete name st, d =>
    match st with
    | none => (d, some .attrError)
    | some ds => ({ d with data := d.data.insert name ds }, none)
  | .datasetRename oldname newname st, d =>
    match st with
    | none => (d, some .attrError)
    | some (ornm, orn) =>
      match d.data.lookup newname with
      | none => (d, some .keyError)
      | some ds =>
        match ds.linked with
        | none => ({ d with data := renameDatasetMap d.data newname oldname }, none)
        | some lk =>
          match lk.params.renames with
          | none => (d, some .typeError)
          | some r =>
            match ornm with
            | none => (d, some .keyError)
            | some o =>
              match r.lookup o with
              | none => (d, some .keyError)
              | some _ =>
                let r1 := r.erase o
                let r2 := match orn with
                  | some e => r1.insert e.1 e.2
                  | none => r1
                let ds2 := { ds with linked := some { lk with params :=
                  { renames := some r2 } } }
                ({ d with data :=
                  renameDatasetMap (d.data.insert newname ds2) newname oldname },
                  none)
  | .datasetDuplicate _ duplname st, d =>
    match st with
    | none => (d, some .attrError)
    | some none =>
      match d.data.lookup duplname with
      | none => (d, some .keyError)
      | some _ => ({ d with data := d.data.erase duplname }, none)
    | some (some o) => ({ d with data := d.data.insert duplname o }, none)
  | .datasetUnlinkFile name st, d =>
    match st with
    | none => (d, some .attrError)
    | some oldlink =>
      match d.data.lookup name with
      | none => (d, some .keyError)
      | some ds =>
        ({ d with data := d.data.insert name { ds with linked := oldlink } }, none)
  | .datasetUnlinkRelation name st, d =>
    match st with
    | none => (d, some .attrError)
    | some ds => ({ d with data := d.data.insert name ds }, none)
  | .datasetUnlinkByFile _ st, d =>
    match st with
    | none => (d, some .attrError)
    | some links => ({ d with data := d.data.restoreLinks links.entries }, none)
  | .datasetDeleteByFile _ st, d =>
    match st with
    | none => (d, some .attrError)
    | some olds => ({ d with data := d.data.restoreData olds.entries }, none)
  | .dataTag tag _ st, d =>
    match st with
    | none => (d, some .attrError)
    | some removetags =>
      let res := dataTagRemoveLoop tag removetags d.data
      ({ d with data := res.1 }, res.2)
  | .dataUntag tag names, d =>
    let res := dataUntagUndoLoop tag names d.data
    ({ d with data := res.1 }, res.2)
  | .datasetAddColumn name col, d =>
    match d.data.lookup name with
    | none => (d, some .keyError)
    | some ds =>
      match ds.errColSet col none with
      | none => (d, some .attrError)
      | some ds2 => ({ d with data := d.data.insert name ds2 }, none)
  | .datasetSetVal name col row _ st, d =>
    match st with
    | none => (d, some .attrError)
    | some oldv =>
      match d.data.lookup name with
      | none => (d, some .keyError)
      | some ds =>
        match ds.colForVal col with
        | .error e => (d, some e)
        | .ok xs =>
          if row < xs.length then
            ({ d with data := d.data.insert name (ds.setColForVal col (xs.set row oldv)) },
              none)
          else (d, some .indexError)
  | .datasetDeleteRow name row numrows st, d =>
    match st with
    | none => (d, some .attrError)
    | some saved =>
      match d.data.lookup name with
      | none => (d, some .keyError)
      | some ds =>
        ({ d with data := d.data.insert name (ds.insertRows row numrows saved) }, none)
  | .datasetInsertRow name row numrows, d =>
    match d.data.lookup name with
    | none => (d, some .keyError)
    | some ds =>
      ({ d with data := d.data.insert name (ds.deleteRows row numrows).1 }, none)
  | .setCustom _ st, d =>
    match st with
    | none => (d, some .attrError)
    | some old => ({ d with customs := old }, none)
  | .multiple ops, d => Op.undoRevList ops d

/-- The reversed loop of OperationMultiple.undo: the children's undo runs
in exact reverse order; a raised exception aborts the loop there. -/
def Op.undoRevList : List Op → Doc → Doc × Option Err
  | [], d => (d, none)
  | op :: rest, d =>
    match Op.undoRevList rest d with
    | (d2, some e) => (d2, some e)
    | (d2, none) => Op.undo op d2

end

/-- How many children's undo methods OperationMultiple.undo invokes (the
trace of attempts, mirroring `Op.undoRevList`), counted from the last
child backwards. -/
def undoRevCount : List Op → Doc → Nat
  | [], _ => 0
  | _ :: rest, d =>
    match Op.undoRevList rest d with
    | (_, some _) => undoRevCount rest d
    | (_, none) => undoRevCount rest d + 1

theorem deleteSteps_undo {t : Widget} {pss : List (List String)}
    {rs : List DelRec} {t2 : Widget} (h : deleteSteps t pss = .ok (rs, t2)) :
    undoDeleteSteps rs t2 = .ok t := by
  induction pss generalizing t rs with
  | nil =>
    rw [deleteSteps] at h
    injection h with h
    injection h with hrs ht
    subst hrs; subst ht
    rfl
  | cons segs rest ih =>
    rw [deleteSteps] at h
    split at h
    · exact absurd h (by simp)
    rename_i r t1 h1
    split at h
    · exact absurd h (by simp)
    rename_i rs0 t20 h2
    injection h with h
    injection h with hrs ht
    subst hrs
    subst ht
    rw [undoDeleteSteps]
    rw [ih h2]
    exact deleteStep_undo h1

/-- Matrix transpose (`N.transpose(...)` on the row-list matrix); cells are
modelled as integers, no claim depends on float values. -/
def transposeM (rows : List (List Int)) : List (List Int) :=
  match rows with
  | [] => []
  | r0 :: _ => (List.range r0.length).map fun i => rows.filterMap fun r => r[i]?

/-- The transpose step of SimpleRead2D.readData (source lines 782-785): if
the transpose parameter is set, the data matrix is transposed and the grid
assignment `self.xgrid, self.ygrid = self.xgrid, self.ygrid` is executed
exactly as written. -/
def transposeStep (transpose : Bool) (data : List (List Int))
    (xgrid ygrid : Option (List Int)) :
    List (List Int) × Option (List Int) × Option (List Int) :=
  if transpose then
    let data2 := transposeM data
    let grids := (xgrid, ygrid)
    (data2, grids.1, grids.2)
  else (data, xgrid, ygrid)

/-- OperationLoadStyleSheet.do: open the history grouping transaction, run
the command interpreter over the stylesheet file, and close the transaction
only when the interpreter raises - the success path of the source contains
no closing `batchHistory(None)` call.  The interpreter is an external
collaborator, passed as a function from the document to the mutated
document and an optional raised exception. -/
def loadStyleSheetDo (run : Doc → Doc × Option Err) (d : Doc) : Doc × Option Err :=
  let d1 := d.batchHistory true
  match run d1 with
  | (d2, some e) => (d2.batchHistory false, some e)
  | (d2, none) => (d2, none)

/-- OperationLoadCustom inherits `do` unchanged from
OperationLoadStyleSheet. -/
def loadCustomDo : (Doc → Doc × Option Err) → Doc → Doc × Option Err :=
  loadStyleSheetDo

/-- OperationToolsPlugin.do: open the history grouping transaction, run the
plugin, and close the transaction on both the raising and the normal
path. -/
def toolsPluginDo (run : Doc → Doc × Option Err) (d : Doc) : Doc × Option Err :=
  let d1 := d.batchHistory true
  match run d1 with
  | (d2, some e) => (d2.batchHistory false, some e)
  | (d2, none) => (d2.batchHistory false, none)

/-- The widget filter of OperationSettingPropagate._recursiveGet:
`(w.name == name or name is None) and (w.typename == typename or typename
is None)`. -/
def matchWT (w : Widget) (nameF typeF : Option String) : Bool :=
  (some w.name == nameF || nameF == none) &&
    (some w.typename == typeF || typeF == none)

mutual

/-- OperationSettingPropagate._recursiveGet: collect, in preorder, the
descendants of `root` that match the filters, descending `maxlevels`
levels of children (the recursion stops when the level counter reaches 0,
so a negative bound recurses without limit). -/
def recursiveGet : Widget → Option String → Option String → Int → List Widget
  | root, nameF, typeF, ml =>
    if ml = 0 then []
    else
      match root with
      | .mk _ _ _ c => recursiveGetC c nameF typeF ml

/-- Helper of `recursiveGet`: the loop over `root.children`, appending each
matching child and then its own matching descendants with the decremented
level counter. -/
def recursiveGetC : List Widget → Option String → Option String → Int → List Widget
  | [], _, _, _ => []
  | w :: ws, nameF, typeF, ml =>
    (if matchWT w nameF typeF then [w] else []) ++
      recursiveGet w nameF typeF (ml - 1) ++ recursiveGetC ws nameF typeF ml

end

/-- The widget list that OperationSettingPropagate.do collects and then
overwrites (the `widgetlist` passed to `_recursiveGet(root,
self.widgetname, self.widgettype, widgetlist, self.maxlevels)`). -/
def settingPropagateTargets (root : Widget) (widgetname : Option String)
    (widgettype : String) (maxlevels : Int) : List Widget :=
  recursiveGet root widgetname (some widgettype) maxlevels

mutual

/-- The widgets lying exactly `d` tree edges below `w` (depth 0 is the
widget itself, depth 1 its children). -/
def atLevel : Widget → Nat → List Widget
  | w, 0 => [w]
  | .mk _ _ _ c, d + 1 => atLevelC c d

/-- Helper of `atLevel`: the widgets `d` edges below any of the listed
widgets. -/
def atLevelC : List Widget → Nat → List Widget
  | [], _ => []
  | w :: ws, d => atLevel w d ++ atLevelC ws d

end

theorem Widget.indOn {P : Widget → Prop}
    (h : ∀ n t s c, (∀ w ∈ c, P w) → P (Widget.mk n t s c)) : ∀ w, P w
  | .mk n t s c => h n t s c fun w hw => Widget.indOn h w
termination_by w => sizeOf w
decreasing_by
  have := List.sizeOf_lt_of_mem hw
  simp only [Widget.mk.sizeOf_spec]
  omega

theorem insertL_insertL_same {K V : Type} [LinearOrder K] (k : K) (v w : V)
    (l : List (K × V)) : insertL k v (insertL k w l) = insertL k v l := by
  induction l with
  | nil => simp [insertL]
  | cons e es ih =>
    by_cases h1 : k < e.1
    · simp [insertL, h1, lt_irrefl]
    · by_cases h2 : k = e.1
      · simp [insertL, h1, h2, lt_irrefl]
      · simp [insertL, h1, h2, ih]

theorem eraseL_of_forall_ne {K V : Type} [LinearOrder K] {k : K}
    {l : List (K × V)} (h : ∀ x ∈ l, ¬ x.1 = k) : eraseL k l = l := by
  induction l with
  | nil => rfl
  | cons e es ih =>
    rw [eraseL, if_neg (h e (List.mem_cons_self e es))]
    rw [ih fun x hx => h x (List.mem_cons_of_mem e hx)]

theorem adjustL_of_forall_ne {K V : Type} [LinearOrder K] {k : K} (f : V → V)
    {l : List (K × V)} (h : ∀ x ∈ l, ¬ x.1 = k) : adjustL k f l = l := by
  induction l with
  | nil => rfl
  | cons e es ih =>
    rw [adjustL, List.map_cons, if_neg (h e (List.mem_cons_self e es))]
    rw [show List.map _ es = adjustL k f es from rfl]
    rw [ih fun x hx => h x (List.mem_cons_of_mem e hx)]

theorem adjustL_cons_ne {K V : Type} [LinearOrder K] {k q : K} {f : V → V}
    {v : V} {B : List (K × V)} (h : ¬ q = k) :
    adjustL q f ((k, v) :: B) = (k, v) :: adjustL q f B := by
  rw [adjustL, List.map_cons, if_neg fun hh => h hh.symm]
  rfl

theorem adjustL_cons_eq {K V : Type} [LinearOrder K] {k : K} {f : V → V}
    {v : V} {B : List (K × V)} :
    adjustL k f ((k, v) :: B) = (k, f v) :: adjustL k f B := by
  rw [adjustL, List.map_cons, if_pos rfl]
  rfl

theorem eraseL_insertL_same {K V : Type} [LinearOrder K] (k : K) (v : V)
    {l : List (K × V)} (hs : EntriesSorted l) :
    eraseL k (insertL k v l) = eraseL k l := by
  induction l with
  | nil => simp [insertL, eraseL]
  | cons e es ih =>
    rcases hs with _ | ⟨he, hes⟩
    by_cases h1 : k < e.1
    · rw [insertL, if_pos h1, eraseL, if_pos rfl, eraseL,
        if_neg (Ne.symm (ne_of_lt h1))]
      rw [eraseL_of_forall_ne fun x hx hxk =>
        absurd (lt_of_lt_of_eq (he x hx) hxk) (asymm h1)]
    · by_cases h2 : k = e.1
      · rw [insertL, if_neg h1, if_pos h2, eraseL, if_pos rfl, eraseL,
          if_pos h2.symm]
      · rw [insertL, if_neg h1, if_neg h2, eraseL,
          if_neg fun hh => h2 hh.symm, eraseL, if_neg fun hh => h2 hh.symm,
          ih hes]

theorem mem_lookupL {K V : Type} [LinearOrder K] {k : K} {v : V}
    {l : List (K × V)} (hs : EntriesSorted l) (h : (k, v) ∈ l) :
    lookupL k l = some v := by
  induction l with
  | nil => exact absurd h (List.not_mem_nil (k, v))
  | cons e es ih =>
    rcases hs with _ | ⟨he, hes⟩
    rcases List.mem_cons.mp h with h | h
    · rw [lookupL, if_pos (by rw [← h])]
      rw [← h]
    · by_cases h1 : e.1 = k
      · have := he (k, v) h
        simp only [h1] at this
        exact absurd this (lt_irrefl k)
      · rw [lookupL, if_neg h1]
        exact ih hes h

theorem restoreLinksLoopL_cons {L : List (String × Link)} {k : String}
    {v : Dataset} {B : List (String × Dataset)} (h : ∀ x ∈ L, ¬ x.1 = k) :
    restoreLinksLoopL L ((k, v) :: B) = (k, v) :: restoreLinksLoopL L B := by
  induction L generalizing B with
  | nil => rfl
  | cons e rest ih =>
    obtain ⟨n, lk⟩ := e
    have hn : ¬ (n = k) := by
      simpa using h (n, lk) (List.mem_cons_self _ rest)
    rw [restoreLinksLoopL, adjustL_cons_ne hn, restoreLinksLoopL]
    exact ih fun x hx => h x (List.mem_cons_of_mem _ hx)

theorem restoreDataLoopL_cons {L : List (String × Dataset)} {k : String}
    {v : Dataset} {B : List (String × Dataset)} (h : ∀ x ∈ L, k < x.1) :
    restoreDataLoopL L ((k, v) :: B) = (k, v) :: restoreDataLoopL L B := by
  induction L generalizing B with
  | nil => rfl
  | cons e rest ih =>
    obtain ⟨n, ds⟩ := e
    have hn : k < n := by simpa using h (n, ds) (List.mem_cons_self _ rest)
    rw [restoreDataLoopL, insertL, if_neg (by simpa using asymm hn),
      if_neg (by simpa using Ne.symm (ne_of_lt hn))]
    rw [restoreDataLoopL]
    exact ih fun x hx => h x (List.mem_cons_of_mem _ hx)

theorem relink_dataset {ds : Dataset} {lk : Link} (h : ds.linked = some lk) :
    { ({ ds with linked := none } : Dataset) with linked := some lk } = ds := by
  cases ds
  simp only at h
  simp [h]

theorem restoreLinksLoopL_round (fn : String) :
    ∀ (l : List (String × Dataset)), EntriesSorted l →
      restoreLinksLoopL (linksOfFileL fn l) (stripFileLinksL fn l) = l := by
  intro l hs
  induction l with
  | nil => rfl
  | cons e es ih =>
    rcases hs with _ | ⟨he, hes⟩
    have hneL : ∀ x ∈ linksOfFileL fn es, ¬ x.1 = e.1 := by
      intro x hx hxk
      obtain ⟨ds, hds⟩ := mem_linksOfFileL hx
      have := he (x.1, ds) hds
      simp only [hxk] at this
      exact absurd this (lt_irrefl e.1)
    by_cases hm : linkedToFile fn e.2
    · obtain ⟨lk, hlk, hfn⟩ : ∃ lk, e.2.linked = some lk ∧ lk.filename = fn := by
        rw [linkedToFile] at hm
        cases hl : e.2.linked with
        | none => rw [hl] at hm; simp at hm
        | some lk => rw [hl] at hm; exact ⟨lk, rfl, by simpa using hm⟩
      have hlinks : linksOfFileL fn (e :: es) = (e.1, lk) :: linksOfFileL fn es := by
        rw [linksOfFileL, List.filterMap_cons, hlk]
        dsimp only
        rw [if_pos hfn]
        rfl
      have hstrip : stripFileLinksL fn (e :: es) =
          (e.1, { e.2 with linked := none }) :: stripFileLinksL fn es := by
        rw [stripFileLinksL, List.map_cons, if_pos hm]
        rfl
      have hstripne : ∀ x ∈ stripFileLinksL fn es, ¬ x.1 = e.1 := by
        intro x hx hxk
        obtain ⟨y, hy, hyx⟩ := List.mem_map.mp hx
        have hkey : x.1 = y.1 := by
          rw [← hyx]
          by_cases hq : linkedToFile fn y.2 <;> simp [hq]
        have := he y hy
        rw [← hkey, hxk] at this
        exact absurd this (lt_irrefl e.1)
      have hehd : e = (e.1, e.2) := rfl
      rw [hlinks, hstrip, restoreLinksLoopL, adjustL_cons_eq]
      rw [adjustL_of_forall_ne _ hstripne]
      rw [relink_dataset hlk]
      rw [restoreLinksLoopL_cons hneL]
      rw [ih hes, ← hehd]
    · have hlinks : linksOfFileL fn (e :: es) = linksOfFileL fn es := by
        rw [linksOfFileL, List.filterMap_cons]
        cases hl : e.2.linked with
        | none => rfl
        | some lk =>
          dsimp only
          rw [if_neg ?_]
          · rfl
          · intro hfn
            rw [linkedToFile, hl] at hm
            simp [hfn] at hm
      have hstrip : stripFileLinksL fn (e :: es) = e :: stripFileLinksL fn es := by
        rw [stripFileLinksL, List.map_cons, if_neg hm]
        rfl
      rw [hlinks, hstrip]
      cases e with
      | mk k v =>
        rw [restoreLinksLoopL_cons hneL]
        rw [ih hes]

theorem restoreDataLoopL_round (fn : String) :
    ∀ (l : List (String × Dataset)), EntriesSorted l →
      restoreDataLoopL (l.filter fun e => linkedToFile fn e.2)
        (l.filter fun e => ! linkedToFile fn e.2) = l := by
  intro l hs
  induction l with
  | nil => rfl
  | cons e es ih =>
    rcases hs with _ | ⟨he, hes⟩
    have hgtL : ∀ x ∈ es.filter (fun e => linkedToFile fn e.2), e.1 < x.1 :=
      fun x hx => he x (List.mem_of_mem_filter hx)
    by_cases hm : linkedToFile fn e.2
    · rw [List.filter_cons_of_pos (by simpa using hm),
        List.filter_cons_of_neg (by simpa using hm)]
      cases e with
      | mk k v =>
        rw [restoreDataLoopL]
        rw [insertL_front k v fun b hb => he b (List.mem_of_mem_filter hb)]
        rw [restoreDataLoopL_cons hgtL]
        rw [ih hes]
    · rw [List.filter_cons_of_neg (by simpa using hm),
        List.filter_cons_of_pos (by simpa using hm)]
      cases e with
      | mk k v =>
        rw [restoreDataLoopL_cons hgtL]
        rw [ih hes]

theorem lookupL_none_forall_ne {K V : Type} [LinearOrder K] {k : K}
    {l : List (K × V)} (h : lookupL k l = none) : ∀ x ∈ l, ¬ x.1 = k := by
  induction l with
  | nil => intro x hx; exact absurd hx (List.not_mem_nil x)
  | cons e es ih =>
    intro x hx
    have h1 : ¬ e.1 = k := by
      intro hh
      rw [lookupL, if_pos hh] at h
      exact absurd h (by simp)
    rw [lookupL, if_neg h1] at h
    rcases List.mem_cons.mp hx with hx | hx
    · rw [hx]
      exact h1
    · exact ih h x hx

theorem Smap.erase_of_lookup_none {K V : Type} [LinearOrder K] {m : Smap K V}
    {k : K} (h : m.lookup k = none) : m.erase k = m :=
  Smap.ext_entries (eraseL_of_forall_ne (lookupL_none_forall_ne h))

theorem Smap.erase_insert_same {K V : Type} [LinearOrder K] (m : Smap K V)
    (k : K) (v : V) : (m.insert k v).erase k = m.erase k :=
  Smap.ext_entries (eraseL_insertL_same k v m.sorted)

theorem updateAt_append (q : List String) :
    ∀ (t : Widget) (p : List String) (f : Widget → Widget),
      updateAt t (p ++ q) f = updateAt t p fun x => updateAt x q f := by
  intro t p
  induction p generalizing t with
  | nil => intro f; simp [updateAt]
  | cons s rest ih =>
    intro f
    cases t with
    | mk n ty st c =>
      rw [List.cons_append, updateAt, updateAt]
      refine congrArg (Widget.mk n ty st) ?_
      induction c with
      | nil => rfl
      | cons c0 cs ihc =>
        by_cases h : c0.name = s
        · rw [updateAtC, if_pos h, updateAtC, if_pos h, ih c0]
        · rw [updateAtC, if_neg h, updateAtC, if_neg h, ihc]

theorem resolveW_append_some {t : Widget} {p : List String} {s : String}
    {w : Widget} (h : resolveW t (p ++ [s]) = some w) :
    ∃ par, resolveW t p = some par ∧
      (par.children.find? fun x => x.name = s) = some w := by
  rw [resolveW_append] at h
  cases hp : resolveW t p with
  | none => rw [hp] at h; exact absurd h (by simp)
  | some par =>
    rw [hp] at h
    refine ⟨par, rfl, ?_⟩
    rw [← resolveW_singleton]
    exact h

theorem renameC_round {c : List Widget} {last newname : String} {w : Widget}
    (hfind : (c.find? fun x => x.name = last) = some w)
    (hpre : ∀ x ∈ c.take (findIdxNamed last c), ¬ x.name = newname) :
    ((updateAtC c last [] (Widget.rename newname)).find?
        fun x => x.name = newname) = some (Widget.rename newname w) ∧
      updateAtC (updateAtC c last [] (Widget.rename newname)) newname []
        (Widget.rename w.name) = c := by
  induction c with
  | nil => simp at hfind
  | cons c0 cs ih =>
    by_cases h0 : c0.name = last
    · rw [List.find?_cons_of_pos _ (by simpa using h0)] at hfind
      have hw : c0 = w := by injection hfind
      subst hw
      rw [updateAtC, if_pos h0]
      constructor
      · rw [List.find?_cons_of_pos _ ?_]
        · simp [updateAt]
        · simpa [updateAt] using Widget.rename_name newname c0
      · rw [updateAtC, if_pos ?_]
        · have : updateAt (updateAt c0 [] (Widget.rename newname)) []
              (Widget.rename c0.name) = c0 := by
            simp only [updateAt]
            cases c0
            rfl
          rw [this]
        · simpa [updateAt] using Widget.rename_name newname c0
    · rw [List.find?_cons_of_neg _ (by simpa using h0)] at hfind
      have hidx : findIdxNamed last (c0 :: cs) = findIdxNamed last cs + 1 := by
        rw [findIdxNamed, List.findIdx_cons, cond_eq_if,
          if_neg (by simpa using h0)]
        rfl
      have hc0 : ¬ c0.name = newname := by
        refine hpre c0 ?_
        rw [hidx, List.take_succ_cons]
        exact List.mem_cons_self _ _
      have hpre2 : ∀ x ∈ cs.take (findIdxNamed last cs), ¬ x.name = newname := by
        intro x hx
        refine hpre x ?_
        rw [hidx, List.take_succ_cons]
        exact List.mem_cons_of_mem _ hx
      obtain ⟨ih1, ih2⟩ := ih hfind hpre2
      rw [updateAtC, if_neg h0]
      constructor
      · rw [List.find?_cons_of_neg _ (by simpa using hc0)]
        exact ih1
      · rw [updateAtC, if_neg hc0, ih2]

mutual

theorem stGet_stSet_val :
    ∀ (p : List String) (t : SettingTree) (old v : SVal), stGet t p = some old →
      stGet (stSet t p v) p = some v
  | [], t, old, v, h => by
    cases t with
    | leaf w => simp [stGet, stSet]
    | node items => simp [stGet] at h
  | s :: rest, t, old, v, h => by
    cases t with
    | leaf w => simp [stGet] at h
    | node items =>
      rw [stGet] at h
      rw [stSet, stGet]
      exact stGetItems_stSetItems_val s rest items old v h

theorem stGetItems_stSetItems_val (s : String) (rest : List String) :
    ∀ (items : List (String × SettingTree)) (old v : SVal),
      stGetItems items s rest = some old →
      stGetItems (stSetItems items s rest v) s rest = some v
  | [], old, v, h => by simp [stGetItems] at h
  | (k, t0) :: es, old, v, h => by
    by_cases hk : k = s
    · rw [stGetItems, if_pos hk] at h
      rw [stSetItems, if_pos hk, stGetItems, if_pos hk]
      exact stGet_stSet_val rest t0 old v h
    · rw [stGetItems, if_neg hk] at h
      rw [stSetItems, if_neg hk, stGetItems, if_neg hk]
      exact stGetItems_stSetItems_val s rest es old v h

end

theorem resolveSP_updateSP_val (p : List String) :
    ∀ (w : Widget) (old v : SVal), resolveSP w p = some old →
      resolveSP (updateSP w p v) p = some v := by
  induction p with
  | nil => intro w old v h; simp [resolveSP] at h
  | cons s rest ih =>
    intro w old v h
    cases w with
    | mk n t st c =>
      rw [resolveSP] at h
      by_cases hc : hasChildNamed c s
      · rw [if_pos hc] at h
        rw [updateSP, if_pos hc, resolveSP,
          if_pos ((hasChildNamed_updateSPC c s s rest v).trans hc)]
        clear hc
        induction c with
        | nil => simp [resolveSPC] at h
        | cons c0 cs ihc =>
          by_cases h0 : c0.name = s
          · rw [resolveSPC, if_pos h0] at h
            rw [updateSPC, if_pos h0, resolveSPC,
              if_pos ((updateSP_name c0 rest v).trans h0)]
            exact ih c0 old v h
          · rw [resolveSPC, if_neg h0] at h
            rw [updateSPC, if_neg h0, resolveSPC, if_neg h0]
            exact ihc h
      · rw [if_neg hc] at h
        rw [updateSP, if_neg hc, resolveSP, if_neg hc]
        exact stGetItems_stSetItems_val s rest st old v h

theorem col_delete_insert (row n : Nat) (col : List Int) :
    colInsertRows row (colSavedRows row n col) (colDeleteRows row n col) = col := by
  rw [colInsertRows, colSavedRows, colDeleteRows]
  by_cases h : row ≤ col.length
  · have hlen : (col.take row).length = row := by
      rw [List.length_take]
      omega
    rw [List.take_left' hlen, List.drop_left' hlen]
    rw [show row + n = row + n from rfl, ← List.drop_drop]
    rw [List.append_assoc, List.take_append_drop, List.take_append_drop]
  · have h0 : col.length ≤ row := le_of_not_le h
    rw [List.take_of_length_le h0, List.drop_eq_nil_of_le h0,
      List.drop_eq_nil_of_le (show col.length ≤ row + n by omega),
      List.append_nil]
    rw [List.take_of_length_le h0, List.drop_eq_nil_of_le h0]
    simp

theorem col_insert_delete (row n : Nat) (col : List Int) (h : row ≤ col.length) :
    colDeleteRows row n (colInsertRows row (List.replicate n 0) col) = col := by
  rw [colInsertRows, colDeleteRows]
  have hlen : (col.take row).length = row := by
    rw [List.length_take]
    omega
  rw [List.append_assoc]
  rw [List.take_left' hlen]
  rw [show row + n = (col.take row).length + n from by rw [hlen]]
  rw [List.drop_append]
  rw [List.drop_left' (List.length_replicate n 0)]
  rw [List.take_append_drop]

theorem dataset_delete_insert_rows (ds : Dataset) (row n : Nat) :
    ((ds.deleteRows row n).1).insertRows row n (ds.deleteRows row n).2 = ds := by
  cases ds with
  | mk ddata dserr dperr dnerr dtags dlinked =>
    rw [Dataset.deleteRows]
    rw [Dataset.insertRows]
    simp only
    cases ddata <;> cases dserr <;> cases dperr <;> cases dnerr <;>
      simp [col_delete_insert]

theorem dataset_insert_delete_rows (ds : Dataset) (row n : Nat)
    (hdata : ∀ xs, ds.data = some xs → row ≤ xs.length)
    (hserr : ∀ xs, ds.serr = some xs → row ≤ xs.length)
    (hperr : ∀ xs, ds.perr = some xs → row ≤ xs.length)
    (hnerr : ∀ xs, ds.nerr = some xs → row ≤ xs.length) :
    ((ds.insertRows row n RowData.empty).deleteRows row n).1 = ds := by
  cases ds with
  | mk ddata dserr dperr dnerr dtags dlinked =>
    rw [Dataset.insertRows, RowData.empty]
    rw [Dataset.deleteRows]
    simp only
    cases hd : ddata <;> cases hs : dserr <;> cases hp : dperr <;>
      cases hn : dnerr <;> simp_all [col_insert_delete]

theorem lookupL_ext {K V : Type} [LinearOrder K] :
    ∀ {l1 l2 : List (K × V)}, EntriesSorted l1 → EntriesSorted l2 →
      (∀ k, lookupL k l1 = lookupL k l2) → l1 = l2 := by
  intro l1
  induction l1 with
  | nil =>
    intro l2 _ _ hk
    cases l2 with
    | nil => rfl
    | cons f fs =>
      have := hk f.1
      rw [lookupL, lookupL, if_pos rfl] at this
      exact absurd this (by simp)
  | cons e es ih =>
    intro l2 hs1 hs2 hk
    cases l2 with
    | nil =>
      have := hk e.1
      rw [lookupL, lookupL, if_pos rfl] at this
      exact absurd this (by simp)
    | cons f fs =>
      rcases hs1 with _ | ⟨he, hes⟩
      rcases hs2 with _ | ⟨hf, hfs⟩
      have hmem1 : (e.1, e.2) ∈ f :: fs := by
        refine lookupL_some_mem ?_
        rw [← hk e.1, lookupL, if_pos rfl]
      have hmem2 : (f.1, f.2) ∈ e :: es := by
        refine lookupL_some_mem ?_
        rw [hk f.1, lookupL, if_pos rfl]
      have hle1 : f.1 ≤ e.1 := by
        rcases List.mem_cons.mp hmem1 with hm | hm
        · exact le_of_eq (congrArg Prod.fst hm).symm
        · exact le_of_lt (hf (e.1, e.2) hm)
      have hle2 : e.1 ≤ f.1 := by
        rcases List.mem_cons.mp hmem2 with hm | hm
        · exact le_of_eq (congrArg Prod.fst hm).symm
        · exact le_of_lt (he (f.1, f.2) hm)
      have hkey : e.1 = f.1 := le_antisymm hle2 hle1
      have hval : e.2 = f.2 := by
        have := hk e.1
        rw [lookupL, if_pos rfl, lookupL, if_pos hkey.symm] at this
        injection this
      have htail : ∀ k, lookupL k es = lookupL k fs := by
        intro k
        by_cases hke : e.1 = k
        · subst hke
          cases hq1 : lookupL e.1 es with
          | none =>
            cases hq2 : lookupL e.1 fs with
            | none => rfl
            | some v =>
              have := hf _ (lookupL_some_mem hq2)
              simp only [← hkey] at this
              exact absurd this (lt_irrefl e.1)
          | some v =>
            have := he _ (lookupL_some_mem hq1)
            exact absurd this (lt_irrefl e.1)
        · have := hk k
          rw [lookupL, if_neg hke, lookupL, if_neg (hkey ▸ hke)] at this
          exact this
      have hef : e = f := Prod.ext hkey hval
      rw [hef, ih hes hfs htail]

theorem Smap.ext_lookup {K V : Type} [LinearOrder K] {a b : Smap K V}
    (h : ∀ k, a.lookup k = b.lookup k) : a = b :=
  Smap.ext_entries (lookupL_ext a.sorted b.sorted h)

theorem Smap.insert_comm_of_ne {K V : Type} [LinearOrder K] {m : Smap K V}
    {p q : K} (v w : V) (h : ¬ p = q) :
    (m.insert p v).insert q w = (m.insert q w).insert p v := by
  refine Smap.ext_lookup fun k => ?_
  by_cases hp : k = p
  · subst hp
    rw [Smap.lookup_insert_ne _ w fun hh => h hh, Smap.lookup_insert_self,
      Smap.lookup_insert_self]
  · by_cases hq : k = q
    · subst hq
      rw [Smap.lookup_insert_self, Smap.lookup_insert_ne _ v fun hh => h hh.symm,
        Smap.lookup_insert_self]
    · rw [Smap.lookup_insert_ne _ w hq, Smap.lookup_insert_ne _ v hp,
        Smap.lookup_insert_ne _ v hp, Smap.lookup_insert_ne _ w hq]

theorem Smap.insert_insert_same {K V : Type} [LinearOrder K] (m : Smap K V)
    (k : K) (v w : V) : (m.insert k w).insert k v = m.insert k v :=
  Smap.ext_entries (insertL_insertL_same k v w m.entries)

/-- Apply a per-dataset rewrite at each listed name in order (names not in
the map are skipped); the shape shared by the tagging loops. -/
def adjustEach (g : Dataset → Dataset) : List String → Smap String Dataset →
    Smap String Dataset
  | [], m => m
  | q :: qs, m =>
    match m.lookup q with
    | some ds => adjustEach g qs (m.insert q (g ds))
    | none => adjustEach g qs m

theorem adjustEach_lookup_notmem (g : Dataset → Dataset) {q : String} :
    ∀ (qs : List String) (m : Smap String Dataset), q ∉ qs →
      (adjustEach g qs m).lookup q = m.lookup q := by
  intro qs
  induction qs with
  | nil => intro m _; rfl
  | cons p ps ih =>
    intro m hq
    have hqp : q ≠ p := fun hh => hq (hh ▸ List.mem_cons_self p ps)
    have hq2 : q ∉ ps := fun hh => hq (List.mem_cons_of_mem p hh)
    rw [adjustEach]
    cases hl : m.lookup p with
    | none => exact ih m hq2
    | some ds =>
      rw [ih _ hq2, Smap.lookup_insert_ne _ _ hqp]

theorem adjustEach_insert_notmem (g : Dataset → Dataset) {q : String} (v : Dataset) :
    ∀ (qs : List String) (m : Smap String Dataset), q ∉ qs →
      (adjustEach g qs m).insert q v = adjustEach g qs (m.insert q v) := by
  intro qs
  induction qs with
  | nil => intro m _; rfl
  | cons p ps ih =>
    intro m hq
    have hqp : q ≠ p := fun hh => hq (hh ▸ List.mem_cons_self p ps)
    have hq2 : q ∉ ps := fun hh => hq (List.mem_cons_of_mem p hh)
    rw [adjustEach, adjustEach]
    rw [m.lookup_insert_ne v (Ne.symm hqp)]
    cases hl : m.lookup p with
    | none => exact ih m hq2
    | some ds =>
      rw [ih _ hq2]
      rw [Smap.insert_comm_of_ne _ _ fun hh => hqp hh.symm]

theorem dataTagLoop_spec (tag : String) :
    ∀ (names acc : List String) (m : Smap String Dataset)
      (accOut : List String) (m2 : Smap String Dataset),
      dataTagLoop tag names acc m = (accOut, m2, none) →
      ∃ nn, accOut = acc ++ nn ∧ nn.Nodup ∧
        (∀ q ∈ nn, ∃ ds, m.lookup q = some ds ∧ tag ∉ ds.tags) ∧
        m2 = adjustEach (fun ds => { ds with tags := insert tag ds.tags }) nn m := by
  intro names
  induction names with
  | nil =>
    intro acc m accOut m2 h
    rw [dataTagLoop] at h
    injection h with h1 h
    injection h with h2 h3
    exact ⟨[], by simp [h1.symm], List.nodup_nil, by simp, h2.symm⟩
  | cons n rest ih =>
    intro acc m accOut m2 h
    rw [dataTagLoop] at h
    cases hl : m.lookup n with
    | none =>
      rw [hl] at h
      injection h with _ h
      injection h with _ h3
      exact absurd h3 (by simp)
    | some ds =>
      rw [hl] at h
      dsimp only at h
      by_cases htag : tag ∈ ds.tags
      · rw [if_pos htag] at h
        exact ih acc m accOut m2 h
      · rw [if_neg htag] at h
        obtain ⟨nn', hacc, hnd, hfacts, hm2⟩ := ih (acc ++ [n]) _ accOut m2 h
        have hnotin : n ∉ nn' := by
          intro hmem
          obtain ⟨ds2, hds2, htag2⟩ := hfacts n hmem
          rw [Smap.lookup_insert_self] at hds2
          injection hds2 with hds2
          rw [← hds2] at htag2
          exact htag2 (Finset.mem_insert_self tag ds.tags)
        refine ⟨n :: nn', by simpa using hacc, List.Nodup.cons hnotin hnd, ?_, ?_⟩
        · intro q hq
          rcases List.mem_cons.mp hq with hq | hq
          · exact ⟨ds, by rw [hq]; exact hl, htag⟩
          · obtain ⟨ds2, hds2, htag2⟩ := hfacts q hq
            have hqn : q ≠ n := fun hh => hnotin (hh ▸ hq)
            rw [Smap.lookup_insert_ne _ _ hqn] at hds2
            exact ⟨ds2, hds2, htag2⟩
        · rw [hm2, adjustEach, hl]

theorem dataTagRemoveLoop_adjustEach (tag : String) :
    ∀ (nn : List String) (m : Smap String Dataset), nn.Nodup →
      (∀ q ∈ nn, ∃ ds, m.lookup q = some ds ∧ tag ∉ ds.tags) →
      dataTagRemoveLoop tag nn
        (adjustEach (fun ds => { ds with tags := insert tag ds.tags }) nn m) =
        (m, none) := by
  intro nn
  induction nn with
  | nil => intro m _ _; rfl
  | cons q qs ih =>
    intro m hnd hfacts
    obtain ⟨ds, hds, htag⟩ := hfacts q (List.mem_cons_self q qs)
    have hqqs : q ∉ qs := (List.nodup_cons.mp hnd).1
    rw [adjustEach, hds]
    dsimp only
    rw [dataTagRemoveLoop]
    rw [adjustEach_lookup_notmem _ qs _ hqqs, Smap.lookup_insert_self]
    dsimp only
    rw [if_pos (by simpa using Finset.mem_insert_self tag ds.tags)]
    have hback : ({ ds with tags := insert tag ds.tags } : Dataset) =
        { ds with tags := insert tag ds.tags } := rfl
    have herase :
        ({ { ds with tags := insert tag ds.tags } with
            tags := (insert tag ds.tags).erase tag } : Dataset) = ds := by
      cases ds with
      | mk ddata dserr dperr dnerr dtags dlinked =>
        simp only
        rw [Finset.erase_insert (by simpa using htag)]
    rw [herase]
    rw [adjustEach_insert_notmem _ ds qs _ hqqs]
    rw [Smap.insert_insert_same]
    rw [Smap.insert_lookup _ hds]
    refine ih m (List.nodup_cons.mp hnd).2 ?_
    intro p hp
    exact hfacts p (List.mem_cons_of_mem q hp)

theorem dataTagRemoveLoop_spec (tag : String) :
    ∀ (names : List String) (m : Smap String Dataset) (m2 : Smap String Dataset),
      dataTagRemoveLoop tag names m = (m2, none) →
      names.Nodup ∧
        (∀ q ∈ names, ∃ ds, m.lookup q = some ds ∧ tag ∈ ds.tags) ∧
        m2 = adjustEach (fun ds => { ds with tags := ds.tags.erase tag }) names m := by
  intro names
  induction names with
  | nil =>
    intro m m2 h
    rw [dataTagRemoveLoop] at h
    injection h with h1 h2
    exact ⟨List.nodup_nil, by simp, h1.symm⟩
  | cons n rest ih =>
    intro m m2 h
    rw [dataTagRemoveLoop] at h
    cases hl : m.lookup n with
    | none =>
      rw [hl] at h
      injection h with _ h2
      exact absurd h2 (by simp)
    | some ds =>
      rw [hl] at h
      dsimp only at h
      by_cases htag : tag ∈ ds.tags
      · rw [if_pos htag] at h
        obtain ⟨hnd, hfacts, hm2⟩ := ih _ m2 h
        have hnotin : n ∉ rest := by
          intro hmem
          obtain ⟨ds2, hds2, htag2⟩ := hfacts n hmem
          rw [Smap.lookup_insert_self] at hds2
          injection hds2 with hds2
          rw [← hds2] at htag2
          simp at htag2
        refine ⟨List.Nodup.cons hnotin hnd, ?_, ?_⟩
        · intro q hq
          rcases List.mem_cons.mp hq with hq | hq
          · exact ⟨ds, by rw [hq]; exact hl, htag⟩
          · obtain ⟨ds2, hds2, htag2⟩ := hfacts q hq
            have hqn : q ≠ n := fun hh => hnotin (hh ▸ hq)
            rw [Smap.lookup_insert_ne _ _ hqn] at hds2
            exact ⟨ds2, hds2, htag2⟩
        · rw [hm2, adjustEach, hl]
      · rw [if_neg htag] at h
        injection h with _ h2
        exact absurd h2 (by simp)

theorem dataUntagUndoLoop_adjustEach (tag : String) :
    ∀ (nn : List String) (m : Smap String Dataset), nn.Nodup →
      (∀ q ∈ nn, ∃ ds, m.lookup q = some ds ∧ tag ∈ ds.tags) →
      dataUntagUndoLoop tag nn
        (adjustEach (fun ds => { ds with tags := ds.tags.erase tag }) nn m) =
        (m, none) := by
  intro nn
  induction nn with
  | nil => intro m _ _; rfl
  | cons q qs ih =>
    intro m hnd hfacts
    obtain ⟨ds, hds, htag⟩ := hfacts q (List.mem_cons_self q qs)
    have hqqs : q ∉ qs := (List.nodup_cons.mp hnd).1
    rw [adjustEach, hds]
    dsimp only
    rw [dataUntagUndoLoop]
    rw [adjustEach_lookup_notmem _ qs _ hqqs, Smap.lookup_insert_self]
    dsimp only
    have hinsert :
        ({ { ds with tags := ds.tags.erase tag } with
            tags := insert tag (ds.tags.erase tag) } : Dataset) = ds := by
      cases ds with
      | mk ddata dserr dperr dnerr dtags dlinked =>
        simp only
        rw [Finset.insert_erase (by simpa using htag)]
    rw [hinsert]
    rw [adjustEach_insert_notmem _ ds qs _ hqqs]
    rw [Smap.insert_insert_same]
    rw [Smap.insert_lookup _ hds]
    refine ih m (List.nodup_cons.mp hnd).2 ?_
    intro p hp
    exact hfacts p (List.mem_cons_of_mem q hp)

theorem mem_atLevelC {ws : List Widget} {d : Nat} {x : Widget} :
    x ∈ atLevelC ws d ↔ ∃ w ∈ ws, x ∈ atLevel w d := by
  induction ws with
  | nil => simp [atLevelC]
  | cons w rest ih =>
    rw [atLevelC, List.mem_append, ih]
    constructor
    · intro hx
      rcases hx with hx | ⟨w2, hw2, hx⟩
      · exact ⟨w, List.mem_cons_self w rest, hx⟩
      · exact ⟨w2, List.mem_cons_of_mem _ hw2, hx⟩
    · intro hx
      rcases hx with ⟨w2, hw2, hx⟩
      rcases List.mem_cons.mp hw2 with hw2 | hw2
      · exact Or.inl (hw2 ▸ hx)
      · exact Or.inr ⟨w2, hw2, hx⟩

theorem mem_recursiveGetC {ws : List Widget} {nameF typeF : Option String}
    {ml : Int} {x : Widget} :
    x ∈ recursiveGetC ws nameF typeF ml ↔
      ∃ w ∈ ws, (x = w ∧ matchWT w nameF typeF = true) ∨
        x ∈ recursiveGet w nameF typeF (ml - 1) := by
  induction ws with
  | nil => simp [recursiveGetC]
  | cons w rest ih =>
    rw [recursiveGetC, List.mem_append, List.mem_append, ih]
    constructor
    · intro hx
      rcases hx with (hx | hx) | ⟨w2, hw2, hx⟩
      · by_cases hm : matchWT w nameF typeF
        · refine ⟨w, List.mem_cons_self w rest, Or.inl ⟨?_, hm⟩⟩
          simpa [hm] using hx
        · simp [hm] at hx
      · exact ⟨w, List.mem_cons_self w rest, Or.inr hx⟩
      · exact ⟨w2, List.mem_cons_of_mem _ hw2, hx⟩
    · intro hx
      rcases hx with ⟨w2, hw2, hx⟩
      rcases List.mem_cons.mp hw2 with hw2 | hw2
      · subst hw2
        rcases hx with ⟨hx, hm⟩ | hx
        · exact Or.inl (Or.inl (by simp [hm, hx]))
        · exact Or.inl (Or.inr hx)
      · exact Or.inr ⟨w2, hw2, hx⟩

theorem mem_recursiveGet (nameF typeF : Option String) :
    ∀ (root : Widget) (ml : Int) (x : Widget),
      x ∈ recursiveGet root nameF typeF ml ↔
        ∃ dep : Nat, x ∈ atLevel root (dep + 1) ∧ matchWT x nameF typeF = true ∧
          (ml < 0 ∨ (dep : Int) + 1 ≤ ml) := by
  refine Widget.indOn ?_
  intro n t s c ih ml x
  by_cases hml : ml = 0
  · subst hml
    rw [recursiveGet]
    simp only [if_pos rfl]
    constructor
    · intro hx
      exact absurd hx (List.not_mem_nil x)
    · intro ⟨dep, _, _, hbound⟩
      omega
  · rw [recursiveGet]
    rw [if_neg hml]
    rw [mem_recursiveGetC]
    constructor
    · intro ⟨w, hw, hx⟩
      rcases hx with ⟨hx, hm⟩ | hx
      · refine ⟨0, ?_, by simpa [hx] using hm, by omega⟩
        rw [show (0 + 1 : Nat) = 1 from rfl]
        change x ∈ atLevelC c 0
        rw [mem_atLevelC]
        exact ⟨w, hw, by simp [atLevel, hx]⟩
      · rcases (ih w hw (ml - 1) x).mp hx with ⟨dep, hlev, hm, hbound⟩
        refine ⟨dep + 1, ?_, hm, by omega⟩
        change x ∈ atLevelC c (dep + 1)
        rw [mem_atLevelC]
        exact ⟨w, hw, hlev⟩
    · intro ⟨dep, hlev, hm, hbound⟩
      have hlev2 : x ∈ atLevelC c dep := hlev
      rw [mem_atLevelC] at hlev2
      obtain ⟨w, hw, hx⟩ := hlev2
      cases dep with
      | zero =>
        have hxw : x = w := by simpa [atLevel] using hx
        exact ⟨w, hw, Or.inl ⟨hxw, hxw ▸ hm⟩⟩
      | succ k =>
        refine ⟨w, hw, Or.inr ?_⟩
        rw [ih w hw (ml - 1) x]
        exact ⟨k, hx, hm, by omega⟩

mutual

/-- Applicability conditions under which each operation's do/undo pair is an
exact inverse.  Everything outside these conditions is either rejected by
`do` itself (so the round-trip hypothesis is vacuous) or is a documented
exclusion: AddColumn over an already-present column (including the value
column `data`, which undo would set to None), a rename of a linked dataset
whose renames dict is still None, a rename landing on an in-use name, a
rename whose old name is a stale renames key without being a chain value,
moves among duplicated sibling names, and row insertion past the end of a
column. -/
def Op.okAt : Op → Doc → Bool
  | .settingSet .., _ => true
  | .widgetRename wpath newname _, d =>
    !wpath.isEmpty &&
      (match resolveW d.basewidget wpath.dropLast, wpath.getLast? with
       | some par, some last =>
         (par.children.take (findIdxNamed last par.children)).all
           fun x => x.name ≠ newname
       | _, _ => true)
  | .widgetDelete .., _ => true
  | .widgetsDelete .., _ => true
  | .widgetMoveUpDown wpath _ _, d =>
    match resolveW d.basewidget wpath.dropLast with
    | some par => decide (par.children.map Widget.name).Nodup
    | none => true
  | .datasetSet .., _ => true
  | .datasetDelete .., _ => true
  | .datasetRename oldname newname _, d =>
    match d.data.lookup oldname with
    | none => true
    | some ds =>
      (d.data.lookup newname == none) &&
        match ds.linked with
        | none => true
        | some lk =>
          match lk.params.renames with
          | none => false
          | some r =>
            (r.entries.find? fun e => e.2 = oldname).isSome ||
              r.lookup oldname == none
  | .datasetDuplicate .., _ => true
  | .datasetUnlinkFile .., _ => true
  | .datasetUnlinkRelation .., _ => true
  | .datasetUnlinkByFile .., _ => true
  | .datasetDeleteByFile .., _ => true
  | .dataTag .., _ => true
  | .dataUntag .., _ => true
  | .datasetAddColumn name col, d =>
    match d.data.lookup name with
    | none => true
    | some ds =>
      if col = "data" then ds.data == none
      else if col = "serr" then ds.serr == none
      else if col = "perr" then ds.perr == none
      else if col = "nerr" then ds.nerr == none
      else true
  | .datasetSetVal .., _ => true
  | .datasetDeleteRow .., _ => true
  | .datasetInsertRow name row _, d =>
    match d.data.lookup name with
    | none => true
    | some ds =>
      (match ds.data with
       | some xs => decide (row ≤ xs.length)
       | none => true) &&
        (match ds.serr with
         | some xs => decide (row ≤ xs.length)
         | none => true) &&
        (match ds.perr with
         | some xs => decide (row ≤ xs.length)
         | none => true) &&
        (match ds.nerr with
         | some xs => decide (row ≤ xs.length)
         | none => true)
  | .setCustom .., _ => true
  | .multiple ops, d => Op.okListAt ops d

/-- The list version of `Op.okAt`: each child is applicable in the document
state where its `do` actually runs. -/
def Op.okListAt : List Op → Doc → Bool
  | [], _ => true
  | op :: rest, d =>
    op.okAt d &&
      (match Op.doOp op d with
       | (_, d2, none) => Op.okListAt rest d2
       | (_, _, some _) => true)

end

theorem datasetDelete_roundtrip {name : String} {st0 : Option Dataset} {d : Doc}
    {op2 : Op} {d2 : Doc}
    (hdo : Op.doOp (.datasetDelete name st0) d = (op2, d2, none)) :
    Op.undo op2 d2 = (d, none) := by
  rw [Op.doOp] at hdo
  cases hl : d.data.lookup name with
  | none => rw [hl] at hdo; exact absurd hdo (by simp)
  | some ds =>
    rw [hl] at hdo
    injection hdo with h1 hdo
    injection hdo with h2 _
    subst h1
    subst h2
    rw [Op.undo]
    dsimp only
    rw [Smap.insert_erase _ hl]

theorem datasetSet_roundtrip {name : String} {ds : Dataset}
    {st0 : Option (Option Dataset)} {d : Doc} {op2 : Op} {d2 : Doc}
    (hdo : Op.doOp (.datasetSet name ds st0) d = (op2, d2, none)) :
    Op.undo op2 d2 = (d, none) := by
  rw [Op.doOp] at hdo
  injection hdo with h1 hdo
  injection hdo with h2 _
  subst h1
  subst h2
  rw [Op.undo]
  dsimp only
  rw [Smap.lookup_insert_self]
  dsimp only
  cases hl : d.data.lookup name with
  | none =>
    dsimp only
    rw [Smap.erase_insert _ ds hl]
  | some o =>
    dsimp only
    rw [Smap.erase_insert_same, Smap.insert_erase _ hl]

theorem datasetDuplicate_roundtrip {origname duplname : String}
    {st0 : Option (Option Dataset)} {d : Doc} {op2 : Op} {d2 : Doc}
    (hdo : Op.doOp (.datasetDuplicate origname duplname st0) d = (op2, d2, none)) :
    Op.undo op2 d2 = (d, none) := by
  rw [Op.doOp] at hdo
  cases ho : d.data.lookup origname with
  | none => rw [ho] at hdo; exact absurd hdo (by simp)
  | some ds =>
    rw [ho] at hdo
    dsimp only at hdo
    cases hl : d.data.lookup duplname with
    | none =>
      rw [hl] at hdo
      injection hdo with h1 hdo
      injection hdo with h2 _
      subst h1
      subst h2
      rw [Op.undo]
      dsimp only
      rw [Smap.lookup_insert_self]
      dsimp only
      rw [Smap.erase_insert _ _ hl]
    | some o =>
      rw [hl] at hdo
      injection hdo with h1 hdo
      injection hdo with h2 _
      subst h1
      subst h2
      rw [Op.undo]
      dsimp only
      rw [Smap.insert_insert_same, Smap.insert_lookup _ hl]

theorem datasetUnlinkFile_roundtrip {name : String}
    {st0 : Option (Option Link)} {d : Doc} {op2 : Op} {d2 : Doc}
    (hdo : Op.doOp (.datasetUnlinkFile name st0) d = (op2, d2, none)) :
    Op.undo op2 d2 = (d, none) := by
  rw [Op.doOp] at hdo
  cases hl : d.data.lookup name with
  | none => rw [hl] at hdo; exact absurd hdo (by simp)
  | some ds =>
    rw [hl] at hdo
    injection hdo with h1 hdo
    injection hdo with h2 _
    subst h1
    subst h2
    rw [Op.undo]
    dsimp only
    rw [Smap.lookup_insert_self]
    dsimp only
    rw [Smap.insert_insert_same]
    have hds : ({ ({ ds with linked := none } : Dataset) with
        linked := ds.linked } : Dataset) = ds := by
      cases ds
      rfl
    rw [hds, Smap.insert_lookup _ hl]

theorem datasetUnlinkRelation_roundtrip {name : String}
    {st0 : Option Dataset} {d : Doc} {op2 : Op} {d2 : Doc}
    (hdo : Op.doOp (.datasetUnlinkRelation name st0) d = (op2, d2, none)) :
    Op.undo op2 d2 = (d, none) := by
  rw [Op.doOp] at hdo
  cases hl : d.data.lookup name with
  | none => rw [hl] at hdo; exact absurd hdo (by simp)
  | some ds =>
    rw [hl] at hdo
    injection hdo with h1 hdo
    injection hdo with h2 _
    subst h1
    subst h2
    rw [Op.undo]
    dsimp only
    rw [Smap.insert_insert_same, Smap.insert_lookup _ hl]

theorem setCustom_roundtrip {vals : List (String × String × String)}
    {st0 : Option (List (String × String × String))} {d : Doc} {op2 : Op} {d2 : Doc}
    (hdo : Op.doOp (.setCustom vals st0) d = (op2, d2, none)) :
    Op.undo op2 d2 = (d, none) := by
  rw [Op.doOp] at hdo
  injection hdo with h1 hdo
  injection hdo with h2 _
  subst h1
  subst h2
  rw [Op.undo]

theorem datasetUnlinkByFile_roundtrip {fn : String}
    {st0 : Option (Smap String Link)} {d : Doc} {op2 : Op} {d2 : Doc}
    (hdo : Op.doOp (.datasetUnlinkByFile fn st0) d = (op2, d2, none)) :
    Op.undo op2 d2 = (d, none) := by
  rw [Op.doOp] at hdo
  injection hdo with h1 hdo
  injection hdo with h2 _
  subst h1
  subst h2
  rw [Op.undo]
  dsimp only
  have hrt : (d.data.stripFileLinks fn).restoreLinks
      (d.data.linksOfFile fn).entries = d.data :=
    Smap.ext_entries (restoreLinksLoopL_round fn d.data.entries d.data.sorted)
  rw [hrt]

theorem settingSet_roundtrip {spath : List String} {value : SVal}
    {st0 : Option SVal} {d : Doc} {op2 : Op} {d2 : Doc}
    (hdo : Op.doOp (.settingSet spath value st0) d = (op2, d2, none)) :
    Op.undo op2 d2 = (d, none) := by
  rw [Op.doOp] at hdo
  cases hr : resolveSP d.basewidget spath with
  | none => rw [hr] at hdo; exact absurd hdo (by simp)
  | some sv =>
    rw [hr] at hdo
    cases sv with
    | lit v0 =>
      dsimp only at hdo
      injection hdo with h1 hdo
      injection hdo with h2 _
      subst h1
      subst h2
      rw [Op.undo]
      dsimp only
      rw [resolveSP_updateSP_val spath d.basewidget (SVal.lit v0) value hr]
      dsimp only
      rw [updateSP_resolveSP spath d.basewidget (SVal.lit v0) value hr]
    | ref r0 =>
      dsimp only at hdo
      injection hdo with h1 hdo
      injection hdo with h2 _
      subst h1
      subst h2
      rw [Op.undo]
      dsimp only
      rw [resolveSP_updateSP_val spath d.basewidget (SVal.ref r0) value hr]
      dsimp only
      rw [updateSP_resolveSP spath d.basewidget (SVal.ref r0) value hr]

theorem widgetDelete_roundtrip {wpath : List String} {st0 : Option DelRec}
    {d : Doc} {op2 : Op} {d2 : Doc}
    (hdo : Op.doOp (.widgetDelete wpath st0) d = (op2, d2, none)) :
    Op.undo op2 d2 = (d, none) := by
  rw [Op.doOp] at hdo
  cases hds : deleteStep d.basewidget wpath with
  | error e => rw [hds] at hdo; exact absurd hdo (by simp)
  | ok p =>
    obtain ⟨r, t2⟩ := p
    rw [hds] at hdo
    injection hdo with h1 hdo
    injection hdo with h2 _
    subst h1
    subst h2
    rw [Op.undo]
    dsimp only
    rw [deleteStep_undo hds]

theorem widgetsDelete_roundtrip {wpaths : List WPath} {st0 : Option (List DelRec)}
    {d : Doc} {op2 : Op} {d2 : Doc}
    (hdo : Op.doOp (.widgetsDelete wpaths st0) d = (op2, d2, none)) :
    Op.undo op2 d2 = (d, none) := by
  rw [Op.doOp] at hdo
  cases hds : deleteSteps d.basewidget ((prunePaths wpaths).map segsOf) with
  | error e => rw [hds] at hdo; exact absurd hdo (by simp)
  | ok p =>
    obtain ⟨rs, t2⟩ := p
    rw [hds] at hdo
    injection hdo with h1 hdo
    injection hdo with h2 _
    subst h1
    subst h2
    rw [Op.undo]
    dsimp only
    rw [deleteSteps_undo hds]

theorem datasetDeleteRow_roundtrip {name : String} {row numrows : Nat}
    {st0 : Option RowData} {d : Doc} {op2 : Op} {d2 : Doc}
    (hdo : Op.doOp (.datasetDeleteRow name row numrows st0) d = (op2, d2, none)) :
    Op.undo op2 d2 = (d, none) := by
  rw [Op.doOp] at hdo
  cases hl : d.data.lookup name with
  | none => rw [hl] at hdo; exact absurd hdo (by simp)
  | some ds =>
    rw [hl] at hdo
    dsimp only at hdo
    injection hdo with h1 hdo
    injection hdo with h2 _
    subst h1
    subst h2
    rw [Op.undo]
    dsimp only
    rw [Smap.lookup_insert_self]
    dsimp only
    rw [dataset_delete_insert_rows ds row numrows]
    rw [Smap.insert_insert_same, Smap.insert_lookup _ hl]

theorem datasetDeleteByFile_roundtrip {fn : String}
    {st0 : Option (Smap String Dataset)} {d : Doc} {op2 : Op} {d2 : Doc}
    (hdo : Op.doOp (.datasetDeleteByFile fn st0) d = (op2, d2, none)) :
    Op.undo op2 d2 = (d, none) := by
  rw [Op.doOp] at hdo
  injection hdo with h1 hdo
  injection hdo with h2 _
  subst h1
  subst h2
  rw [Op.undo]
  dsimp only
  have hrt : (d.data.filterEntries fun e => ! linkedToFile fn e.2).restoreData
      (d.data.filterEntries fun e => linkedToFile fn e.2).entries = d.data :=
    Smap.ext_entries (restoreDataLoopL_round fn d.data.entries d.data.sorted)
  rw [hrt]

theorem dataTag_roundtrip {tag : String} {names : List String}
    {st0 : Option (List String)} {d : Doc} {op2 : Op} {d2 : Doc}
    (hdo : Op.doOp (.dataTag tag names st0) d = (op2, d2, none)) :
    Op.undo op2 d2 = (d, none) := by
  rw [Op.doOp] at hdo
  cases hres : dataTagLoop tag names [] d.data with
  | mk accOut rest =>
    obtain ⟨m2, err⟩ := rest
    rw [hres] at hdo
    dsimp only at hdo
    injection hdo with h1 hdo
    injection hdo with h2 h3
    subst h1
    subst h2
    subst h3
    obtain ⟨nn, haccOut, hnd, hfacts, hm2⟩ :=
      dataTagLoop_spec tag names [] d.data accOut m2 hres
    rw [List.nil_append] at haccOut
    subst haccOut
    rw [Op.undo]
    dsimp only
    rw [hm2, dataTagRemoveLoop_adjustEach tag accOut d.data hnd hfacts]

theorem dataUntag_roundtrip {tag : String} {names : List String}
    {d : Doc} {op2 : Op} {d2 : Doc}
    (hdo : Op.doOp (.dataUntag tag names) d = (op2, d2, none)) :
    Op.undo op2 d2 = (d, none) := by
  rw [Op.doOp] at hdo
  cases hres : dataTagRemoveLoop tag names d.data with
  | mk m2 err =>
    rw [hres] at hdo
    dsimp only at hdo
    injection hdo with h1 hdo
    injection hdo with h2 h3
    subst h1
    subst h2
    subst h3
    obtain ⟨hnd, hfacts, hm2⟩ := dataTagRemoveLoop_spec tag names d.data m2 hres
    rw [Op.undo]
    dsimp only
    rw [hm2, dataUntagUndoLoop_adjustEach tag names d.data hnd hfacts]

theorem datasetInsertRow_roundtrip {name : String} {row numrows : Nat}
    {d : Doc} {op2 : Op} {d2 : Doc}
    (hok : Op.okAt (.datasetInsertRow name row numrows) d = true)
    (hdo : Op.doOp (.datasetInsertRow name row numrows) d = (op2, d2, none)) :
    Op.undo op2 d2 = (d, none) := by
  rw [Op.doOp] at hdo
  cases hl : d.data.lookup name with
  | none => rw [hl] at hdo; exact absurd hdo (by simp)
  | some ds =>
    rw [hl] at hdo
    injection hdo with h1 hdo
    injection hdo with h2 _
    subst h1
    subst h2
    rw [Op.okAt, hl] at hok
    dsimp only at hok
    have hd1 : ∀ xs, ds.data = some xs → row ≤ xs.length := by
      intro xs hxs
      have h := hok
      rw [hxs] at h
      simp only [Bool.and_eq_true, decide_eq_true_eq] at h
      exact h.1.1.1
    have hs1 : ∀ xs, ds.serr = some xs → row ≤ xs.length := by
      intro xs hxs
      have h := hok
      rw [hxs] at h
      simp only [Bool.and_eq_true, decide_eq_true_eq] at h
      exact h.1.1.2
    have hp1 : ∀ xs, ds.perr = some xs → row ≤ xs.length := by
      intro xs hxs
      have h := hok
      rw [hxs] at h
      simp only [Bool.and_eq_true, decide_eq_true_eq] at h
      exact h.1.2
    have hn1 : ∀ xs, ds.nerr = some xs → row ≤ xs.length := by
      intro xs hxs
      have h := hok
      rw [hxs] at h
      simp only [Bool.and_eq_true, decide_eq_true_eq] at h
      exact h.2
    rw [Op.undo]
    dsimp only
    rw [Smap.lookup_insert_self]
    dsimp only
    rw [dataset_insert_delete_rows ds row numrows hd1 hs1 hp1 hn1]
    rw [Smap.insert_insert_same, Smap.insert_lookup _ hl]

theorem datasetAddColumn_roundtrip {name col : String} {d : Doc} {op2 : Op}
    {d2 : Doc}
    (hok : Op.okAt (.datasetAddColumn name col) d = true)
    (hdo : Op.doOp (.datasetAddColumn name col) d = (op2, d2, none)) :
    Op.undo op2 d2 = (d, none) := by
  rw [Op.doOp] at hdo
  cases hl : d.data.lookup name with
  | none => rw [hl] at hdo; exact absurd hdo (by simp)
  | some ds =>
    rw [hl] at hdo
    dsimp only at hdo
    rw [Op.okAt, hl] at hok
    dsimp only at hok
    by_cases hc0 : col = "data"
    · subst hc0
      rw [if_pos rfl] at hok
      have hdata : ds.data = none := by simpa using hok
      rw [hdata] at hdo
      exact absurd hdo (by simp)
    · rw [if_neg hc0] at hok
      cases hdt : ds.data with
      | none => rw [hdt] at hdo; exact absurd hdo (by simp)
      | some datacol =>
        rw [hdt] at hdo
        dsimp only at hdo
        by_cases hc1 : col = "serr"
        · subst hc1
          rw [if_pos rfl] at hok
          have hserr : ds.serr = none := by simpa using hok
          rw [Dataset.errColSet, if_neg (by decide), if_pos rfl] at hdo
          dsimp only at hdo
          injection hdo with h1 hdo
          injection hdo with h2 _
          subst h1
          subst h2
          rw [Op.undo]
          dsimp only
          rw [Smap.lookup_insert_self]
          dsimp only
          rw [Dataset.errColSet, if_neg (by decide), if_pos rfl]
          dsimp only
          have hds : ({ ({ ds with serr := some (List.replicate datacol.length 0) } :
              Dataset) with serr := none } : Dataset) = ds := by
            cases ds with
            | mk da se pe ne tg lk =>
              have h0 : se = none := by simpa using hserr
              rw [h0]
          rw [hds, Smap.insert_insert_same, Smap.insert_lookup _ hl]
        · rw [if_neg hc1] at hok
          by_cases hc2 : col = "perr"
          · subst hc2
            rw [if_pos rfl] at hok
            have hperr : ds.perr = none := by simpa using hok
            rw [Dataset.errColSet, if_neg (by decide), if_neg (by decide),
              if_pos rfl] at hdo
            dsimp only at hdo
            injection hdo with h1 hdo
            injection hdo with h2 _
            subst h1
            subst h2
            rw [Op.undo]
            dsimp only
            rw [Smap.lookup_insert_self]
            dsimp only
            rw [Dataset.errColSet, if_neg (by decide), if_neg (by decide),
              if_pos rfl]
            dsimp only
            have hds : ({ ({ ds with perr := some (List.replicate datacol.length 0) } :
                Dataset) with perr := none } : Dataset) = ds := by
              cases ds with
              | mk da se pe ne tg lk =>
                have h0 : pe = none := by simpa using hperr
                rw [h0]
            rw [hds, Smap.insert_insert_same, Smap.insert_lookup _ hl]
          · rw [if_neg hc2] at hok
            by_cases hc3 : col = "nerr"
            · subst hc3
              rw [if_pos rfl] at hok
              have hnerr : ds.nerr = none := by simpa using hok
              rw [Dataset.errColSet, if_neg (by decide), if_neg (by decide),
                if_neg (by decide), if_pos rfl] at hdo
              dsimp only at hdo
              injection hdo with h1 hdo
              injection hdo with h2 _
              subst h1
              subst h2
              rw [Op.undo]
              dsimp only
              rw [Smap.lookup_insert_self]
              dsimp only
              rw [Dataset.errColSet, if_neg (by decide), if_neg (by decide),
                if_neg (by decide), if_pos rfl]
              dsimp only
              have hds : ({ ({ ds with nerr := some (List.replicate datacol.length 0) } :
                  Dataset) with nerr := none } : Dataset) = ds := by
                cases ds with
                | mk da se pe ne tg lk =>
                  have h0 : ne = none := by simpa using hnerr
                  rw [h0]
              rw [hds, Smap.insert_insert_same, Smap.insert_lookup _ hl]
            · rw [Dataset.errColSet, if_neg hc0, if_neg hc1, if_neg hc2,
                if_neg hc3] at hdo
              exact absurd hdo (by simp)

theorem Widget.children_mk (n t : String) (s : List (String × SettingTree))
    (c : List Widget) : (Widget.mk n t s c).children = c := rfl

theorem mapChildren_children (f : List Widget → List Widget) (w : Widget) :
    (mapChildren f w).children = f w.children := by
  cases w
  rfl

theorem mapChildren_eq_self {f : List Widget → List Widget} {w : Widget}
    (h : f w.children = w.children) : mapChildren f w = w := by
  cases w with
  | mk n t s c =>
    have h2 : f c = c := h
    rw [mapChildren, h2]

theorem moveChildL_find {l : List Widget} {nm : String} {dir : Int}
    {l2 : List Widget} (hnd : (l.map Widget.name).Nodup)
    (h : moveChildL l nm dir = (l2, true)) :
    ∃ w2, (l2.find? fun c => c.name = nm) = some w2 ∧ w2.name = nm := by
  rw [moveChildL] at h
  by_cases hcond : 0 ≤ (findIdxNamed nm l : Int) + dir ∧
      (findIdxNamed nm l : Int) + dir < (l.length : Int) ∧
      findIdxNamed nm l < l.length
  · rw [if_pos hcond] at h
    obtain ⟨hc1, hc2, hc3⟩ := hcond
    injection h with hl2 _
    subst hl2
    have hjlt : ((findIdxNamed nm l : Int) + dir).toNat < l.length := by omega
    have hf2 := findIdxNamed_swapIdx hnd rfl hc3 hjlt
    have hlen :
        (swapIdx l (findIdxNamed nm l)
            (((findIdxNamed nm l : Int) + dir).toNat)).length = l.length :=
      swapIdx_length hc3 hjlt
    have hsome : ((swapIdx l (findIdxNamed nm l)
        (((findIdxNamed nm l : Int) + dir).toNat)).find?
          fun c => c.name = nm).isSome := by
      refine find?_isSome_of_findIdx_lt ?_
      have hgoal : findIdxNamed nm (swapIdx l (findIdxNamed nm l)
          (((findIdxNamed nm l : Int) + dir).toNat)) <
          (swapIdx l (findIdxNamed nm l)
            (((findIdxNamed nm l : Int) + dir).toNat)).length := by
        rw [hf2, hlen]
        omega
      exact hgoal
    obtain ⟨w2, hw2⟩ := Option.isSome_iff_exists.mp hsome
    exact ⟨w2, hw2, by simpa using List.find?_some hw2⟩
  · rw [if_neg hcond] at h
    injection h with _ hb
    simp at hb

theorem widgetRename_roundtrip {wpath : List String} {newname : String}
    {st0 : Option (String × List String)} {d : Doc} {op2 : Op} {d2 : Doc}
    (hok : Op.okAt (.widgetRename wpath newname st0) d = true)
    (hdo : Op.doOp (.widgetRename wpath newname st0) d = (op2, d2, none)) :
    Op.undo op2 d2 = (d, none) := by
  rw [Op.doOp] at hdo
  cases hw : resolveW d.basewidget wpath with
  | none => rw [hw] at hdo; exact absurd hdo (by simp)
  | some w =>
    rw [hw] at hdo
    injection hdo with h1 hdo
    injection hdo with h2 _
    subst h1
    subst h2
    rw [Op.okAt] at hok
    rcases List.eq_nil_or_concat wpath with hnil | ⟨P, LS, hPL⟩
    · rw [hnil] at hok
      simp at hok
    · rw [List.concat_eq_append] at hPL
      subst hPL
      rw [List.dropLast_concat] at hok ⊢
      obtain ⟨par, hpar, hfind⟩ := resolveW_append_some hw
      have hlastq : (P ++ [LS]).getLast? = some LS := by
        simp [List.getLast?_concat]
      rw [hpar, hlastq] at hok
      dsimp only at hok
      have hpre : ∀ x ∈ par.children.take (findIdxNamed LS par.children),
          ¬ x.name = newname := by
        intro x hx
        simp only [Bool.and_eq_true, List.all_eq_true, decide_eq_true_eq] at hok
        exact hok.2 x hx
      obtain ⟨hfindr, hback⟩ := renameC_round hfind hpre
      have hg : ∀ x, (updateAt x [LS] (Widget.rename newname)).name = x.name := by
        intro x
        cases x with
        | mk n t s c =>
          rw [updateAt]
          rfl
      have hup : updateAt d.basewidget (P ++ [LS]) (Widget.rename newname) =
          updateAt d.basewidget P
            fun x => updateAt x [LS] (Widget.rename newname) :=
        updateAt_append [LS] d.basewidget P (Widget.rename newname)
      have hpc : updateAt par [LS] (Widget.rename newname) =
          Widget.mk par.name par.typename par.settings
            (updateAtC par.children LS [] (Widget.rename newname)) := by
        cases par with
        | mk n t s c =>
          rw [updateAt]
          rfl
      rw [Op.undo]
      dsimp only
      rw [hup, resolveW_append, resolveW_updateAt_self hg hpar]
      simp only [Option.bind]
      rw [hpc, resolveW_singleton, Widget.children_mk]
      rw [hfindr]
      dsimp only
      rw [updateAt_append, updateAt_comp hg]
      have hfix : updateAt (updateAt par [LS] (Widget.rename newname)) [newname]
          (Widget.rename w.name) = par := by
        rw [hpc, updateAt, hback]
        cases par with
        | mk n t s c => rfl
      have hts : updateAt d.basewidget P
          (fun x => updateAt (updateAt x [LS] (Widget.rename newname)) [newname]
            (Widget.rename w.name)) = d.basewidget :=
        updateAt_eq_self hpar hfix
      rw [hts]

theorem widgetMoveUpDown_roundtrip {wpath : List String} {dir : Int}
    {st0 : Option (Bool × List String)} {d : Doc} {op2 : Op} {d2 : Doc}
    (hok : Op.okAt (.widgetMoveUpDown wpath dir st0) d = true)
    (hdo : Op.doOp (.widgetMoveUpDown wpath dir st0) d = (op2, d2, none)) :
    Op.undo op2 d2 = (d, none) := by
  rw [Op.doOp] at hdo
  cases hw : resolveW d.basewidget wpath with
  | none => rw [hw] at hdo; exact absurd hdo (by simp)
  | some w =>
    rw [hw] at hdo
    dsimp only at hdo
    by_cases hemp : wpath.isEmpty
    · rw [if_pos hemp] at hdo
      exact absurd hdo (by simp)
    · rw [if_neg hemp] at hdo
      rcases List.eq_nil_or_concat wpath with hnil | ⟨P, LS, hPL⟩
      · rw [hnil] at hemp
        simp at hemp
      · rw [List.concat_eq_append] at hPL
        subst hPL
        rw [List.dropLast_concat] at hdo
        obtain ⟨par, hpar, hfind⟩ := resolveW_append_some hw
        rw [hpar] at hdo
        dsimp only at hdo
        injection hdo with h1 hdo
        injection hdo with h2 _
        subst h1
        subst h2
        have hwname : w.name = LS := by simpa using List.find?_some hfind
        rw [Op.okAt, List.dropLast_concat, hpar] at hok
        dsimp only at hok
        simp only [decide_eq_true_eq] at hok
        have hnd := hok
        cases hmv : moveChildL par.children w.name dir with
        | mk l2 b =>
          dsimp only
          cases b with
          | false =>
            rw [Op.undo]
            have hfix : mapChildren
                (fun c => (moveChildL c w.name dir).1) par = par := by
              refine mapChildren_eq_self ?_
              rw [moveChildL] at hmv ⊢
              by_cases hcond : 0 ≤ (findIdxNamed w.name par.children : Int) + dir ∧
                  (findIdxNamed w.name par.children : Int) + dir <
                    (par.children.length : Int) ∧
                  findIdxNamed w.name par.children < par.children.length
              · rw [if_pos hcond] at hmv
                injection hmv with _ hb
                simp at hb
              · rw [if_neg hcond]
            rw [updateAt_eq_self hpar hfix]
          | true =>
            obtain ⟨w2, hw2find, hw2name⟩ := moveChildL_find hnd hmv
            have hGF : moveChildL l2 w2.name (-dir) = (par.children, true) := by
              rw [hw2name]
              exact moveChildL_inv hnd hmv
            rw [Op.undo]
            dsimp only
            have hres2 : resolveW (updateAt d.basewidget P
                (mapChildren fun c => (moveChildL c w.name dir).1))
                (P ++ [LS]) = some w2 := by
              rw [resolveW_append,
                resolveW_updateAt_self (fun x => mapChildren_name _ x) hpar]
              simp only [Option.bind]
              rw [resolveW_singleton, mapChildren_children]
              rw [hmv]
              dsimp only
              rw [← hwname]
              exact hw2find
            rw [hres2]
            dsimp only
            rw [if_neg (by simp)]
            rw [List.dropLast_concat]
            rw [updateAt_comp fun x => mapChildren_name _ x]
            have hfix : mapChildren (fun c => (moveChildL c w2.name (-dir)).1)
                (mapChildren (fun c => (moveChildL c w.name dir).1) par) = par := by
              rw [mapChildren_comp]
              refine mapChildren_eq_self ?_
              dsimp only
              rw [hmv]
              dsimp only
              rw [hGF]
            have hts : updateAt d.basewidget P
                (fun x => mapChildren (fun c => (moveChildL c w2.name (-dir)).1)
                  (mapChildren (fun c => (moveChildL c w.name dir).1) x)) =
                d.basewidget :=
              updateAt_eq_self hpar hfix
            rw [hts]

theorem colForVal_setColForVal {ds : Dataset} {col : String} {xs : List Int}
    (h : ds.colForVal col = .ok xs) (ys : List Int) :
    (ds.setColForVal col ys).colForVal col = .ok ys := by
  by_cases h1 : col = "data"
  · subst h1
    simp [Dataset.setColForVal, Dataset.colForVal]
  · by_cases h2 : col = "serr"
    · subst h2
      simp [Dataset.setColForVal, Dataset.colForVal]
    · by_cases h3 : col = "perr"
      · subst h3
        simp [Dataset.setColForVal, Dataset.colForVal]
      · by_cases h4 : col = "nerr"
        · subst h4
          simp [Dataset.setColForVal, Dataset.colForVal]
        · rw [Dataset.colForVal, if_neg h1, if_neg h2, if_neg h3,
            if_neg h4] at h
          exact absurd h (by simp)

theorem setColForVal_setColForVal (ds : Dataset) (col : String)
    (ys zs : List Int) :
    (ds.setColForVal col ys).setColForVal col zs = ds.setColForVal col zs := by
  by_cases h1 : col = "data"
  · subst h1
    simp [Dataset.setColForVal]
  · by_cases h2 : col = "serr"
    · subst h2
      simp [Dataset.setColForVal]
    · by_cases h3 : col = "perr"
      · subst h3
        simp [Dataset.setColForVal]
      · by_cases h4 : col = "nerr"
        · subst h4
          simp [Dataset.setColForVal]
        · simp [Dataset.setColForVal, h1, h2, h3, h4]

theorem setColForVal_colForVal {ds : Dataset} {col : String} {xs : List Int}
    (h : ds.colForVal col = .ok xs) : ds.setColForVal col xs = ds := by
  by_cases h1 : col = "data"
  · subst h1
    rw [Dataset.colForVal, if_pos rfl] at h
    cases hs : ds.data with
    | none => rw [hs] at h; exact absurd h (by simp)
    | some v =>
      rw [hs] at h
      injection h with h
      cases ds with
      | mk da se pe ne tg lk =>
        have h0 : da = some v := hs
        simp [Dataset.setColForVal, h0, h]
  · by_cases h2 : col = "serr"
    · subst h2
      rw [Dataset.colForVal, if_neg (by decide), if_pos rfl] at h
      cases hs : ds.serr with
      | none => rw [hs] at h; exact absurd h (by simp)
      | some v =>
        rw [hs] at h
        injection h with h
        cases ds with
        | mk da se pe ne tg lk =>
          have h0 : se = some v := hs
          simp [Dataset.setColForVal, h0, h]
    · by_cases h3 : col = "perr"
      · subst h3
        rw [Dataset.colForVal, if_neg (by decide), if_neg (by decide),
          if_pos rfl] at h
        cases hs : ds.perr with
        | none => rw [hs] at h; exact absurd h (by simp)
        | some v =>
          rw [hs] at h
          injection h with h
          cases ds with
          | mk da se pe ne tg lk =>
            have h0 : pe = some v := hs
            simp [Dataset.setColForVal, h0, h]
      · by_cases h4 : col = "nerr"
        · subst h4
          rw [Dataset.colForVal, if_neg (by decide), if_neg (by decide),
            if_neg (by decide), if_pos rfl] at h
          cases hs : ds.nerr with
          | none => rw [hs] at h; exact absurd h (by simp)
          | some v =>
            rw [hs] at h
            injection h with h
            cases ds with
            | mk da se pe ne tg lk =>
              have h0 : ne = some v := hs
              simp [Dataset.setColForVal, h0, h]
        · rw [Dataset.colForVal, if_neg h1, if_neg h2, if_neg h3,
            if_neg h4] at h
          exact absurd h (by simp)

theorem datasetSetVal_roundtrip {name col : String} {row : Nat} {val : Int}
    {st0 : Option Int} {d : Doc} {op2 : Op} {d2 : Doc}
    (hdo : Op.doOp (.datasetSetVal name col row val st0) d = (op2, d2, none)) :
    Op.undo op2 d2 = (d, none) := by
  rw [Op.doOp] at hdo
  cases hl : d.data.lookup name with
  | none => rw [hl] at hdo; exact absurd hdo (by simp)
  | some ds =>
    rw [hl] at hdo
    dsimp only at hdo
    cases hcv : ds.colForVal col with
    | error e => rw [hcv] at hdo; exact absurd hdo (by simp)
    | ok xs =>
      rw [hcv] at hdo
      dsimp only at hdo
      cases hrow : xs[row]? with
      | none => rw [hrow] at hdo; exact absurd hdo (by simp)
      | some oldv =>
        rw [hrow] at hdo
        dsimp only at hdo
        injection hdo with h1 hdo
        injection hdo with h2 _
        subst h1
        subst h2
        have hrlt : row < xs.length := by
          by_contra hge
          rw [List.getElem?_eq_none (by omega)] at hrow
          exact absurd hrow (by simp)
        rw [Op.undo]
        dsimp only
        rw [Smap.lookup_insert_self]
        dsimp only
        rw [colForVal_setColForVal hcv (xs.set row val)]
        dsimp only
        rw [if_pos (by simpa using hrlt)]
        rw [setColForVal_setColForVal, List.set_set, setList_getElem hrow,
          setColForVal_colForVal hcv]
        rw [Smap.insert_insert_same, Smap.insert_lookup _ hl]

theorem renameDatasetMap_lookup {m : Smap String Dataset} {old : String}
    {v : Dataset} (new : String) (h : m.lookup old = some v) :
    renameDatasetMap m old new = (m.erase old).insert new v := by
  rw [renameDatasetMap, h]

theorem renameDatasetMap_insert (m : Smap String Dataset) (old new : String)
    (v : Dataset) :
    renameDatasetMap (m.insert old v) old new = (m.erase old).insert new v := by
  rw [renameDatasetMap, Smap.lookup_insert_self]
  dsimp only
  rw [Smap.erase_insert_same]

theorem datasetRename_roundtrip {oldname newname : String}
    {st0 : Option (Option String × Option (String × String))} {d : Doc}
    {op2 : Op} {d2 : Doc}
    (hok : Op.okAt (.datasetRename oldname newname st0) d = true)
    (hdo : Op.doOp (.datasetRename oldname newname st0) d = (op2, d2, none)) :
    Op.undo op2 d2 = (d, none) := by
  rw [Op.doOp] at hdo
  cases hl : d.data.lookup oldname with
  | none => rw [hl] at hdo; exact absurd hdo (by simp)
  | some ds =>
    rw [hl] at hdo
    dsimp only at hdo
    rw [Op.okAt, hl] at hok
    dsimp only at hok
    simp only [Bool.and_eq_true] at hok
    obtain ⟨hA, hB⟩ := hok
    have hnew : d.data.lookup newname = none := by simpa using hA
    have hne : newname ≠ oldname := by
      intro h
      rw [h, hl] at hnew
      exact absurd hnew (by simp)
    have hlerase : (d.data.erase oldname).lookup newname = none := by
      rw [Smap.lookup_erase_ne _ hne]
      exact hnew
    cases hlk : ds.linked with
    | none =>
      rw [hlk] at hdo
      injection hdo with h1 hdo
      injection hdo with h2 _
      subst h1
      subst h2
      rw [Op.undo]
      dsimp only
      rw [renameDatasetMap_lookup newname hl]
      rw [Smap.lookup_insert_self]
      dsimp only
      rw [hlk]
      dsimp only
      rw [renameDatasetMap_insert, Smap.erase_of_lookup_none hlerase,
        Smap.insert_erase _ hl]
    | some lk =>
      rw [hlk] at hdo
      dsimp only at hdo
      rw [hlk] at hB
      dsimp only at hB
      cases hr : lk.params.renames with
      | none =>
        rw [hr] at hB
        simp at hB
      | some r =>
        rw [hr] at hB
        dsimp only at hB
        have hfnd2 := hB
        rw [hr] at hdo
        dsimp only at hdo
        cases hfnd : r.entries.find? fun e => e.2 = oldname with
        | some e =>
          rw [hfnd] at hdo
          dsimp only at hdo
          injection hdo with h1 hdo
          injection hdo with h2 _
          subst h1
          subst h2
          have hlook : r.lookup e.1 = some e.2 :=
            mem_lookupL r.sorted (List.mem_of_find?_eq_some hfnd)
          rw [Op.undo]
          dsimp only
          rw [renameDatasetMap_insert]
          rw [Smap.lookup_insert_self]
          dsimp only
          rw [Smap.lookup_insert_self]
          dsimp only
          rw [renameDatasetMap_insert]
          rw [Smap.erase_insert _ _ hlerase]
          have hr2 : ((r.insert e.1 newname).erase e.1).insert e.1 e.2 = r := by
            rw [Smap.erase_insert_same]
            exact Smap.insert_erase _ hlook
          rw [hr2]
          have hds3 : (Dataset.mk ds.data ds.serr ds.perr ds.nerr ds.tags
              (some (Link.mk lk.filename (LinkParams.mk (some r))))) = ds := by
            cases ds with
            | mk da se pe ne tg lkk =>
              have h0 : lkk = some lk := hlk
              subst h0
              cases lk with
              | mk fn pr =>
                cases pr with
                | mk rn =>
                  have h1 : rn = some r := hr
                  rw [h1]
          rw [hds3, Smap.insert_erase _ hl]
        | none =>
          rw [hfnd] at hdo
          dsimp only at hdo
          injection hdo with h1 hdo
          injection hdo with h2 _
          subst h1
          subst h2
          rw [hfnd] at hfnd2
          have hrnone : r.lookup oldname = none := by simpa using hfnd2
          rw [Op.undo]
          dsimp only
          rw [renameDatasetMap_insert]
          rw [Smap.lookup_insert_self]
          dsimp only
          rw [Smap.lookup_insert_self]
          dsimp only
          rw [renameDatasetMap_insert]
          rw [Smap.erase_insert _ _ hlerase]
          have hr2 : (r.insert oldname newname).erase oldname = r := by
            rw [Smap.erase_insert_same]
            exact Smap.erase_of_lookup_none hrnone
          rw [hr2]
          have hds3 : (Dataset.mk ds.data ds.serr ds.perr ds.nerr ds.tags
              (some (Link.mk lk.filename (LinkParams.mk (some r))))) = ds := by
            cases ds with
            | mk da se pe ne tg lkk =>
              have h0 : lkk = some lk := hlk
              subst h0
              cases lk with
              | mk fn pr =>
                cases pr with
                | mk rn =>
                  have h1 : rn = some r := hr
                  rw [h1]
          rw [hds3, Smap.insert_erase _ hl]

mutual

theorem doOp_undo : ∀ (op : Op) (d : Doc) (op2 : Op) (d2 : Doc),
    Op.okAt op d = true → Op.doOp op d = (op2, d2, none) →
    Op.undo op2 d2 = (d, none)
  | .settingSet _ _ _, _, _, _, _, hdo => settingSet_roundtrip hdo
  | .widgetRename _ _ _, _, _, _, hok, hdo => widgetRename_roundtrip hok hdo
  | .widgetDelete _ _, _, _, _, _, hdo => widgetDelete_roundtrip hdo
  | .widgetsDelete _ _, _, _, _, _, hdo => widgetsDelete_roundtrip hdo
  | .widgetMoveUpDown _ _ _, _, _, _, hok, hdo =>
    widgetMoveUpDown_roundtrip hok hdo
  | .datasetSet _ _ _, _, _, _, _, hdo => datasetSet_roundtrip hdo
  | .datasetDelete _ _, _, _, _, _, hdo => datasetDelete_roundtrip hdo
  | .datasetRename _ _ _, _, _, _, hok, hdo => datasetRename_roundtrip hok hdo
  | .datasetDuplicate _ _ _, _, _, _, _, hdo => datasetDuplicate_roundtrip hdo
  | .datasetUnlinkFile _ _, _, _, _, _, hdo => datasetUnlinkFile_roundtrip hdo
  | .datasetUnlinkRelation _ _, _, _, _, _, hdo =>
    datasetUnlinkRelation_roundtrip hdo
  | .datasetUnlinkByFile _ _, _, _, _, _, hdo => datasetUnlinkByFile_roundtrip hdo
  | .datasetDeleteByFile _ _, _, _, _, _, hdo => datasetDeleteByFile_roundtrip hdo
  | .dataTag _ _ _, _, _, _, _, hdo => dataTag_roundtrip hdo
  | .dataUntag _ _, _, _, _, _, hdo => dataUntag_roundtrip hdo
  | .datasetAddColumn _ _, _, _, _, hok, hdo => datasetAddColumn_roundtrip hok hdo
  | .datasetSetVal _ _ _ _ _, _, _, _, _, hdo => datasetSetVal_roundtrip hdo
  | .datasetDeleteRow _ _ _ _, _, _, _, _, hdo => datasetDeleteRow_roundtrip hdo
  | .datasetInsertRow _ _ _, _, _, _, hok, hdo =>
    datasetInsertRow_roundtrip hok hdo
  | .setCustom _ _, _, _, _, _, hdo => setCustom_roundtrip hdo
  | .multiple ops, d, op2, d2, hok, hdo => by
    rw [Op.doOp] at hdo
    rw [Op.okAt] at hok
    cases hres : Op.doList ops d with
    | mk ops2 rest =>
      obtain ⟨d2x, err⟩ := rest
      rw [hres] at hdo
      dsimp only at hdo
      injection hdo with h1 hdo
      injection hdo with h2 h3
      subst h1
      subst h2
      subst h3
      rw [Op.undo]
      exact doList_undo ops d ops2 d2x hok hres

theorem doList_undo : ∀ (ops : List Op) (d : Doc) (ops2 : List Op) (d2 : Doc),
    Op.okListAt ops d = true → Op.doList ops d = (ops2, d2, none) →
    Op.undoRevList ops2 d2 = (d, none)
  | [], d, ops2, d2, _, hdo => by
    rw [Op.doList] at hdo
    injection hdo with h1 hdo
    injection hdo with h2 _
    subst h1
    subst h2
    rw [Op.undoRevList]
  | op :: rest, d, ops2, d2, hok, hdo => by
    rw [Op.doList] at hdo
    rw [Op.okListAt] at hok
    cases hstep : Op.doOp op d with
    | mk op2x r2 =>
      obtain ⟨d2x, err⟩ := r2
      rw [hstep] at hdo hok
      cases err with
      | some e =>
        dsimp only at hdo
        injection hdo with _ hdo
        injection hdo with _ h3
        exact absurd h3 (by simp)
      | none =>
        dsimp only at hdo hok
        simp only [Bool.and_eq_true] at hok
        obtain ⟨hok1, hok2⟩ := hok
        cases hrest : Op.doList rest d2x with
        | mk ops3 r3 =>
          obtain ⟨d3, err3⟩ := r3
          rw [hrest] at hdo
          dsimp only at hdo
          injection hdo with h1 hdo
          injection hdo with h2 h3
          subst h1
          subst h2
          subst h3
          rw [Op.undoRevList]
          rw [doList_undo rest d2x ops3 d3 hok2 hrest]
          dsimp only
          exact doOp_undo op d op2x d2x hok1 hstep

end

def W0 : Widget := Widget.mk "" "document" [] []

def D0 : Doc := ⟨W0, Smap.empty, [], false⟩

def dsPlain : Dataset := ⟨some [1, 2], none, none, none, ∅, none⟩

def dsSerr : Dataset := ⟨some [1], some [5], none, none, ∅, none⟩

def DC1 : Doc := ⟨W0, Smap.empty.insert "a" dsSerr, [], false⟩

def DPD : Doc := ⟨W0, Smap.empty.insert "a" dsPlain, [], false⟩

/-- C1: for every operation applicable in the sense of `Op.okAt`, a `do`
that raised nothing is inverted exactly by `undo`: the widget tree, dataset
map, custom definitions and settings all return to the state immediately
before `do`. -/
theorem C1_do_undo_exact_inverse (op : Op) (d : Doc) (op2 : Op) (d2 : Doc)
    (hok : Op.okAt op d = true) (hdo : Op.doOp op d = (op2, d2, none)) :
    Op.undo op2 d2 = (d, none) :=
  doOp_undo op d op2 d2 hok hdo

/-- C1 witness: a dataset-set operation on a concrete document satisfies
the applicability hypothesis, its `do` succeeds and the theorem applies. -/
theorem C1_do_undo_exact_inverse_witness :
    Op.okAt (.datasetSet "a" dsPlain none) D0 = true ∧
    Op.undo (Op.doOp (.datasetSet "a" dsPlain none) D0).1
      (Op.doOp (.datasetSet "a" dsPlain none) D0).2.1 = (D0, none) := by
  have hok : Op.okAt (.datasetSet "a" dsPlain none) D0 = true := by
    simp [Op.okAt]
  have h22 : (Op.doOp (.datasetSet "a" dsPlain none) D0).2.2 = none := by
    simp [Op.doOp]
  have hdo : Op.doOp (.datasetSet "a" dsPlain none) D0 =
      ((Op.doOp (.datasetSet "a" dsPlain none) D0).1,
        (Op.doOp (.datasetSet "a" dsPlain none) D0).2.1, none) := by
    rw [← h22]
  exact ⟨hok, C1_do_undo_exact_inverse _ D0 _ _ hok hdo⟩

/-- C1 counterexample to the unconditional claim: OperationDatasetAddColumn
over a dataset that already has a serr column succeeds (it zero-fills the
column), yet its undo sets serr to None instead of the original values;
likewise over the always-present data column do succeeds (setattr zero-fills
it) and undo sets data to None, so do-then-undo does not restore the
document. -/
theorem C1_do_undo_exact_inverse_cex :
    ((Op.doOp (.datasetAddColumn "a" "serr") DC1).2.2 = none ∧
      Op.undo (Op.doOp (.datasetAddColumn "a" "serr") DC1).1
        (Op.doOp (.datasetAddColumn "a" "serr") DC1).2.1 ≠ (DC1, none)) ∧
    ((Op.doOp (.datasetAddColumn "a" "data") DPD).2.2 = none ∧
      Op.undo (Op.doOp (.datasetAddColumn "a" "data") DPD).1
        (Op.doOp (.datasetAddColumn "a" "data") DPD).2.1 ≠ (DPD, none)) := by
  refine ⟨⟨?_, ?_⟩, ?_, ?_⟩
  · simp [Op.doOp, DC1, dsSerr, Smap.insert, Smap.lookup, Smap.empty,
      insertL, lookupL, Dataset.errColSet]
  · simp [Op.doOp, Op.undo, DC1, dsSerr, Smap.insert, Smap.lookup, Smap.empty,
      insertL, lookupL, Dataset.errColSet, Smap.ext_entries]
  · simp [Op.doOp, DPD, dsPlain, Smap.insert, Smap.lookup, Smap.empty,
      insertL, lookupL, Dataset.errColSet]
  · simp [Op.doOp, Op.undo, DPD, dsPlain, Smap.insert, Smap.lookup, Smap.empty,
      insertL, lookupL, Dataset.errColSet, Smap.ext_entries]

def c2stored : List Op :=
  [.setCustom [("t", "u", "v")] (some []), .datasetDelete "missing" none,
    .setCustom [("p", "q", "r")] none]

def D1c2 : Doc := ⟨W0, Smap.empty, [("t", "u", "v")], false⟩

/-- C2: in a three-child OperationMultiple whose second child's do raises,
the first child remains applied after the failure (the resulting document
keeps its effect); but the composite's undo then runs the children in
reverse order, so it first attempts the third child - whose undo raises
AttributeError because its do never stored undo state - aborts there with
that error, and never reverses the first child. Exactly one child's undo is
attempted. -/
theorem C2_multiple_partial_failure :
    Op.doOp (.multiple [.setCustom [("t", "u", "v")] none,
        .datasetDelete "missing" none, .setCustom [("p", "q", "r")] none]) D0 =
      (.multiple c2stored, D1c2, some Err.keyError) ∧
    Op.undo (.multiple c2stored) D1c2 = (D1c2, some Err.attrError) ∧
    undoRevCount c2stored D1c2 = 1 := by
  refine ⟨?_, ?_, ?_⟩
  · simp [Op.doOp, Op.doList, D0, D1c2, c2stored, Smap.lookup, Smap.empty,
      lookupL]
  · simp [Op.undo, Op.undoRevList, c2stored]
  · simp [undoRevCount, Op.undoRevList, Op.undo, c2stored]

/-- C2 counterexample to the claimed undo behaviour: after the partial
failure the composite's undo does not reverse the first child (the document
is not restored to its initial state; undo aborts with the third child's
AttributeError), and it does attempt one of the children beyond the first
(the third). -/
theorem C2_multiple_partial_failure_cex :
    Op.undo (.multiple c2stored) D1c2 ≠ (D0, none) ∧
    undoRevCount c2stored D1c2 ≠ 0 := by
  constructor
  · simp [Op.undo, Op.undoRevList, c2stored]
  · simp [undoRevCount, Op.undoRevList, Op.undo, c2stored]

/-- C3: OperationToolsPlugin.do closes the history grouping transaction on
both exit paths, and OperationLoadStyleSheet.do (inherited unchanged by
OperationLoadCustom) closes it when the interpreter raises - but on the
success path it returns with the transaction still open: the success-path
document keeps batchOpen true, with no batchHistory(None) call. -/
theorem C3_batch_history_close_paths :
    (∀ (run : Doc → Doc × Option Err) (d : Doc),
      ((toolsPluginDo run d).1).batchOpen = false) ∧
    (∀ (d : Doc) (e : Err),
      loadStyleSheetDo (fun x => (x, some e)) d =
        ((d.batchHistory true).batchHistory false, some e)) ∧
    (∀ d : Doc, loadStyleSheetDo (fun x => (x, none)) d =
      (d.batchHistory true, none)) ∧
    (∀ d : Doc, ((loadStyleSheetDo (fun x => (x, none)) d).1).batchOpen = true) ∧
    loadCustomDo = loadStyleSheetDo := by
  refine ⟨?_, ?_, ?_, ?_, rfl⟩
  · intro run d
    rw [toolsPluginDo]
    cases run (d.batchHistory true) with
    | mk d2 err =>
      cases err <;> rfl
  · intro d e
    rfl
  · intro d
    rfl
  · intro d
    rfl

def c4w : Widget := Widget.mk "" "document" [] [Widget.mk "page1" "page" [] []]

def D4m : Doc := ⟨c4w, Smap.empty, [], false⟩

def D4u : Doc := ⟨W0, Smap.empty.insert "a" dsPlain, [], false⟩

/-- C4: OperationWidgetMoveUpDown at a list boundary records the failed
move (suceeded = False) without raising and its undo then skips the inverse
swap; but OperationDataUntag applied to a dataset not carrying the tag does
raise: set.remove raises KeyError, so the do call fails rather than being a
recorded no-op. -/
theorem C4_noop_conditions :
    Op.doOp (.widgetMoveUpDown ["page1"] 1 none) D4m =
      (.widgetMoveUpDown ["page1"] 1 (some (false, ["page1"])), D4m, none) ∧
    (∀ (wpath : List String) (dir : Int) (p : List String) (d : Doc),
      Op.undo (.widgetMoveUpDown wpath dir (some (false, p))) d = (d, none)) ∧
    Op.doOp (.dataUntag "T" ["a"]) D4u =
      (.dataUntag "T" ["a"], D4u, some Err.keyError) := by
  refine ⟨?_, ?_, ?_⟩
  · simp [Op.doOp, D4m, c4w, resolveW, resolveWC, Widget.name, Widget.children,
      moveChildL, findIdxNamed, List.findIdx, List.findIdx.go, updateAt,
      updateAtC, mapChildren, swapIdx]
  · intro wpath dir p d
    rw [Op.undo]
  · simp [Op.doOp, dataTagRemoveLoop, D4u, dsPlain, Smap.insert, Smap.lookup,
      Smap.empty, insertL, lookupL]

/-- C4 counterexample to the untag half of the claim: untagging a dataset
that does not carry the tag raises KeyError from do instead of completing
as a recorded no-op. -/
theorem C4_noop_conditions_cex :
    (Op.doOp (.dataUntag "T" ["a"]) D4u).2.2 = some Err.keyError := by
  simp [Op.doOp, dataTagRemoveLoop, D4u, dsPlain, Smap.insert, Smap.lookup,
    Smap.empty, insertL, lookupL]

/-- C9: in SimpleRead2D.readData, the transpose step transposes the data
matrix but leaves xgrid and ygrid exactly as they were - the source's
`self.xgrid, self.ygrid = self.xgrid, self.ygrid` assignment swaps
nothing - and without the transpose parameter nothing changes at all. -/
theorem C9_transpose_grids_unchanged (data : List (List Int))
    (xgrid ygrid : Option (List Int)) :
    transposeStep true data xgrid ygrid = (transposeM data, xgrid, ygrid) ∧
    transposeStep false data xgrid ygrid = (data, xgrid, ygrid) := by
  constructor <;> rfl

/-- C5: OperationSettingPropagate's widget collection is exactly the
name/type-filtered widgets within the depth bound: a widget is collected
iff it sits dep+1 levels below root for some dep, matches the filters, and
dep+1 is within maxlevels (any depth when maxlevels < 0); with maxlevels=1
exactly the matching direct children are collected, never grandchildren,
and with maxlevels=-1 all matching descendants at every depth. -/
theorem C5_setting_propagate_depth :
    (∀ (root : Widget) (nameF : Option String) (ty : String) (ml : Int)
        (x : Widget),
      x ∈ settingPropagateTargets root nameF ty ml ↔
        ∃ dep : Nat, x ∈ atLevel root (dep + 1) ∧
          matchWT x nameF (some ty) = true ∧
          (ml < 0 ∨ (dep : Int) + 1 ≤ ml)) ∧
    (∀ (root : Widget) (nameF : Option String) (ty : String) (x : Widget),
      x ∈ settingPropagateTargets root nameF ty 1 ↔
        x ∈ atLevel root 1 ∧ matchWT x nameF (some ty) = true) ∧
    (∀ (root : Widget) (nameF : Option String) (ty : String) (x : Widget),
      x ∈ settingPropagateTargets root nameF ty (-1) ↔
        ∃ dep : Nat, x ∈ atLevel root (dep + 1) ∧
          matchWT x nameF (some ty) = true) := by
  refine ⟨?_, ?_, ?_⟩
  · intro root nameF ty ml x
    rw [settingPropagateTargets]
    exact mem_recursiveGet nameF (some ty) root ml x
  · intro root nameF ty x
    rw [settingPropagateTargets, mem_recursiveGet]
    constructor
    · intro ⟨dep, hl, hm, hb⟩
      rcases hb with hb | hb
      · omega
      · have hd0 : dep = 0 := by omega
        subst hd0
        exact ⟨hl, hm⟩
    · intro ⟨hl, hm⟩
      exact ⟨0, hl, hm, Or.inr (by omega)⟩
  · intro root nameF ty x
    rw [settingPropagateTargets, mem_recursiveGet]
    constructor
    · intro ⟨dep, hl, hm, _⟩
      exact ⟨dep, hl, hm⟩
    · intro ⟨dep, hl, hm⟩
      exact ⟨dep, hl, hm, Or.inl (by omega)⟩

/-- C6: OperationWidgetsDelete prunes every requested path that is a strict
descendant of another kept path, so deleting a widget and one of its
descendants produces exactly the document and deletion records of deleting
the ancestor alone; and whenever the pruned multi-delete succeeds, undo
reinserts the retained widget objects in reverse order at their recorded
parent paths and indices, restoring the original tree exactly. -/
theorem C6_widgets_delete_prune_undo :
    (∀ p q : WPath, prunePaths [p, p ++ '/' :: q] = [p]) ∧
    (∀ (p q : WPath) (st st' : Option (List DelRec)) (d : Doc),
      (Op.doOp (.widgetsDelete [p, p ++ '/' :: q] st) d).2 =
        (Op.doOp (.widgetsDelete [p] st') d).2) ∧
    (∀ (wpaths : List WPath) (st : Option (List DelRec)) (d : Doc)
        (op2 : Op) (d2 : Doc),
      Op.doOp (.widgetsDelete wpaths st) d = (op2, d2, none) →
      Op.undo op2 d2 = (d, none)) := by
  have hone : ∀ p : WPath, prunePaths [p] = [p] := by
    intro p
    rw [prunePaths, sortByLen, sortByLen, insertByLen, List.foldl_cons,
      List.foldl_nil, pruneKept]
    rw [if_neg (by simp)]
    rfl
  have hprune : ∀ p q : WPath, prunePaths [p, p ++ '/' :: q] = [p] := by
    intro p q
    have hlen : ¬ ((p ++ '/' :: q).length < p.length) := by
      simp only [List.length_append, List.length_cons]
      omega
    have hstrict : strictDescendOf (p ++ '/' :: q) p = true := by
      rw [strictDescendOf]
      have hsplit : p ++ '/' :: q = (p ++ ['/']) ++ q := by simp
      have htake : (p ++ '/' :: q).take (p.length + 1) = p ++ ['/'] := by
        rw [hsplit]
        exact List.take_left' (by simp)
      rw [htake]
      simp
    rw [prunePaths]
    rw [show sortByLen [p, p ++ '/' :: q] = [p, p ++ '/' :: q] from by
      rw [sortByLen, sortByLen, sortByLen, insertByLen, insertByLen,
        if_neg hlen]]
    rw [List.foldl_cons, List.foldl_cons, List.foldl_nil]
    rw [show pruneKept [] p = [p] from by rw [pruneKept, if_neg (by simp)]; rfl]
    rw [pruneKept, if_pos (by simp [hstrict])]
  refine ⟨hprune, ?_, ?_⟩
  · intro p q st st' d
    rw [Op.doOp, Op.doOp, hprune p q, hone p]
    cases hds : deleteSteps d.basewidget ([p].map segsOf) with
    | error e => rfl
    | ok pr =>
      obtain ⟨rs, t2⟩ := pr
      rfl
  · intro wpaths st d op2 d2 hdo
    exact widgetsDelete_roundtrip hdo

def lk0 : Link := ⟨"f.dat", ⟨some Smap.empty⟩⟩

def dsL : Dataset := ⟨some [7], none, none, none, ∅, some lk0⟩

def D7 : Doc := ⟨W0, Smap.empty.insert "x" dsL, [], false⟩

def ds2l : Dataset :=
  ⟨some [7], none, none, none, ∅,
    some ⟨"f.dat", ⟨some (Smap.empty.insert "x" "y")⟩⟩⟩

def D7b : Doc := ⟨W0, Smap.empty.insert "y" ds2l, [], false⟩

def ds3l : Dataset :=
  ⟨some [7], none, none, none, ∅,
    some ⟨"f.dat", ⟨some (Smap.empty.insert "x" "z")⟩⟩⟩

def D7c : Doc := ⟨W0, Smap.empty.insert "z" ds3l, [], false⟩

/-- C7: renaming a linked dataset x to y and then y to z collapses the
link's renames map to a single x-to-z entry, undoing the second rename
restores the x-to-y entry exactly, and undoing the first then restores the
initialised renames map (here the empty dict) exactly as before either
rename. -/
theorem C7_rename_chain :
    Op.doOp (.datasetRename "x" "y" none) D7 =
      (.datasetRename "x" "y" (some (some "x", none)), D7b, none) ∧
    Op.doOp (.datasetRename "y" "z" none) D7b =
      (.datasetRename "y" "z" (some (some "x", some ("x", "y"))), D7c, none) ∧
    (Smap.empty.insert "x" "y").insert "x" "z" = Smap.empty.insert "x" "z" ∧
    Op.undo (.datasetRename "y" "z" (some (some "x", some ("x", "y")))) D7c =
      (D7b, none) ∧
    Op.undo (.datasetRename "x" "y" (some (some "x", none))) D7b =
      (D7, none) := by
  have h1 : Op.doOp (.datasetRename "x" "y" none) D7 =
      (.datasetRename "x" "y" (some (some "x", none)), D7b, none) := by
    simp [Op.doOp, D7, D7b, dsL, lk0, ds2l, Smap.insert, Smap.lookup,
      Smap.empty, Smap.erase, insertL, lookupL, eraseL, renameDatasetMap]
  have h2 : Op.doOp (.datasetRename "y" "z" none) D7b =
      (.datasetRename "y" "z" (some (some "x", some ("x", "y"))), D7c, none) := by
    simp [Op.doOp, D7b, D7c, ds2l, ds3l, Smap.insert, Smap.lookup,
      Smap.empty, Smap.erase, insertL, lookupL, eraseL, renameDatasetMap]
  have hok1 : Op.okAt (.datasetRename "x" "y" none) D7 = true := by
    simp [Op.okAt, D7, dsL, lk0, Smap.insert, Smap.lookup, Smap.empty,
      insertL, lookupL]
  have hok2 : Op.okAt (.datasetRename "y" "z" none) D7b = true := by
    simp [Op.okAt, D7b, ds2l, Smap.insert, Smap.lookup, Smap.empty,
      insertL, lookupL]
  exact ⟨h1, h2, Smap.insert_insert_same Smap.empty "x" "z" "y",
    datasetRename_roundtrip hok2 h2, datasetRename_roundtrip hok1 h1⟩

def dsN : Dataset := ⟨some [7], none, none, none, ∅, some ⟨"f.dat", ⟨none⟩⟩⟩

def D7n : Doc := ⟨W0, Smap.empty.insert "x" dsN, [], false⟩

/-- C7 counterexample for a linked dataset whose renames map is still None:
renaming x to y succeeds and undoing lands on a document whose link carries
an empty renames dict rather than None, so the metadata is not exactly as
before the rename. -/
theorem C7_rename_chain_cex :
    Op.doOp (.datasetRename "x" "y" none) D7n =
      (.datasetRename "x" "y" (some (some "x", none)), D7b, none) ∧
    Op.undo (.datasetRename "x" "y" (some (some "x", none))) D7b = (D7, none) ∧
    D7 ≠ D7n := by
  have h1 : Op.doOp (.datasetRename "x" "y" none) D7n =
      (.datasetRename "x" "y" (some (some "x", none)), D7b, none) := by
    simp [Op.doOp, D7n, D7b, dsN, ds2l, Smap.insert, Smap.lookup,
      Smap.empty, Smap.erase, insertL, lookupL, eraseL, renameDatasetMap]
  have hok1 : Op.okAt (.datasetRename "x" "y" none) D7 = true := by
    simp [Op.okAt, D7, dsL, lk0, Smap.insert, Smap.lookup, Smap.empty,
      insertL, lookupL]
  have h1' : Op.doOp (.datasetRename "x" "y" none) D7 =
      (.datasetRename "x" "y" (some (some "x", none)), D7b, none) := by
    simp [Op.doOp, D7, D7b, dsL, lk0, ds2l, Smap.insert, Smap.lookup,
      Smap.empty, Smap.erase, insertL, lookupL, eraseL, renameDatasetMap]
  refine ⟨h1, datasetRename_roundtrip hok1 h1', ?_⟩
  intro h
  have hq := congrArg (fun dd => dd.data.lookup "x") h
  simp [D7, D7n, dsL, dsN, lk0, Smap.insert, Smap.lookup, Smap.empty,
    insertL, lookupL] at hq

def dsTagged : Dataset := ⟨some [], none, none, none, {"T"}, none⟩

def DW8 : Doc := ⟨W0, Smap.empty.insert "a" dsTagged, [], false⟩

/-- C8: a successful OperationDataTag records for undo exactly the names
where the tag was newly added - a dataset already carrying the tag is an
unrecorded no-op and keeps its dataset object untouched through do - and
the subsequent undo removes the tag exactly from the newly-tagged
datasets, restoring the document completely. -/
theorem C8_tag_idempotent_undo (tag : String) (names : List String) (d : Doc)
    (op2 : Op) (d2 : Doc)
    (hdo : Op.doOp (.dataTag tag names none) d = (op2, d2, none)) :
    ∃ nn : List String,
      op2 = .dataTag tag names (some nn) ∧
      (∀ q ∈ nn, ∃ ds, d.data.lookup q = some ds ∧ tag ∉ ds.tags) ∧
      (∀ (q : String) (ds : Dataset), d.data.lookup q = some ds →
        tag ∈ ds.tags → d2.data.lookup q = some ds) ∧
      Op.undo op2 d2 = (d, none) := by
  have hundo := dataTag_roundtrip hdo
  rw [Op.doOp] at hdo
  cases hres : dataTagLoop tag names [] d.data with
  | mk accOut rest =>
    obtain ⟨m2, err⟩ := rest
    rw [hres] at hdo
    dsimp only at hdo
    injection hdo with h1 hdo2
    injection hdo2 with h2 h3
    subst h3
    obtain ⟨nn, hacc, hnd, hfacts, hm2⟩ :=
      dataTagLoop_spec tag names [] d.data accOut m2 hres
    rw [List.nil_append] at hacc
    subst hacc
    refine ⟨accOut, h1.symm, hfacts, ?_, hundo⟩
    intro q ds hq htag
    have hqn : q ∉ accOut := by
      intro hmem
      obtain ⟨ds2, hds2, htag2⟩ := hfacts q hmem
      rw [hq] at hds2
      injection hds2 with he
      rw [he] at htag
      exact htag2 htag
    rw [← h2]
    dsimp only
    rw [hm2, adjustEach_lookup_notmem _ accOut d.data hqn]
    exact hq

/-- C8 witness: tagging an already-tagged dataset in a concrete document
satisfies the success hypothesis, and the theorem's undo conclusion applies
at that input. -/
theorem C8_tag_idempotent_undo_witness :
    Op.undo (Op.doOp (.dataTag "T" ["a"] none) DW8).1
      (Op.doOp (.dataTag "T" ["a"] none) DW8).2.1 = (DW8, none) := by
  have h22 : (Op.doOp (.dataTag "T" ["a"] none) DW8).2.2 = none := by
    simp [Op.doOp, dataTagLoop, DW8, dsTagged, Smap.insert, Smap.lookup,
      Smap.empty, insertL, lookupL]
  have hdo : Op.doOp (.dataTag "T" ["a"] none) DW8 =
      ((Op.doOp (.dataTag "T" ["a"] none) DW8).1,
        (Op.doOp (.dataTag "T" ["a"] none) DW8).2.1, none) := by
    rw [← h22]
  obtain ⟨nn, h1, h2, h3, h4⟩ := C8_tag_idempotent_undo "T" ["a"] DW8 _ _ hdo
  exact h4

theorem entriesSorted_keys_nodup {K V : Type} [LinearOrder K]
    {l : List (K × V)} (h : EntriesSorted l) : (l.map Prod.fst).Nodup :=
  List.pairwise_map.mpr (h.imp fun hab => ne_of_lt hab)

theorem restoreLinksLoopL_lookup_none :
    ∀ (L : List (String × Link)) (m : List (String × Dataset)) (q : String),
      lookupL q m = none → lookupL q (restoreLinksLoopL L m) = none
  | [], _, _, h => h
  | (n, lk) :: rest, m, q, h => by
    rw [restoreLinksLoopL]
    refine restoreLinksLoopL_lookup_none rest _ q ?_
    by_cases hq : q = n
    · subst hq
      rw [lookupL_adjustL_self, h]
      rfl
    · rw [lookupL_adjustL_ne _ _ hq]
      exact h

theorem restoreLinksLoopL_lookup_notmem :
    ∀ (L : List (String × Link)) (m : List (String × Dataset)) (q : String),
      (∀ e ∈ L, e.1 ≠ q) → lookupL q (restoreLinksLoopL L m) = lookupL q m
  | [], _, _, _ => rfl
  | (n, lk) :: rest, m, q, h => by
    rw [restoreLinksLoopL]
    rw [restoreLinksLoopL_lookup_notmem rest _ q
      fun e he => h e (List.mem_cons_of_mem _ he)]
    exact lookupL_adjustL_ne _ _
      fun hq => h (n, lk) (List.mem_cons_self _ _) hq.symm

theorem restoreLinksLoopL_lookup_mem :
    ∀ (L : List (String × Link)) (m : List (String × Dataset)) (q : String)
      (lk : Link) (ds : Dataset), (L.map Prod.fst).Nodup → (q, lk) ∈ L →
      lookupL q m = some ds →
      lookupL q (restoreLinksLoopL L m) = some { ds with linked := some lk }
  | [], _, _, _, _, _, hmem, _ => absurd hmem (List.not_mem_nil _)
  | (n, lk0x) :: rest, m, q, lk, ds, hnd, hmem, hl => by
    rw [restoreLinksLoopL]
    rcases List.mem_cons.mp hmem with he | he
    · injection he with h1 h2
      subst h1
      subst h2
      have hnot : ∀ e ∈ rest, e.1 ≠ q := by
        intro e he2 heq
        have hq : q ∈ rest.map Prod.fst := by
          rw [← heq]
          exact List.mem_map_of_mem Prod.fst he2
        exact (List.nodup_cons.mp hnd).1 hq
      rw [restoreLinksLoopL_lookup_notmem rest _ q hnot]
      rw [lookupL_adjustL_self, hl]
      rfl
    · have hq : q ≠ n := by
        intro hqe
        subst hqe
        have hq2 : (q, lk).1 ∈ rest.map Prod.fst :=
          List.mem_map_of_mem Prod.fst he
        exact (List.nodup_cons.mp hnd).1 hq2
      refine restoreLinksLoopL_lookup_mem rest _ q lk ds
        (List.nodup_cons.mp hnd).2 he ?_
      rw [lookupL_adjustL_ne _ _ hq]
      exact hl

/-- C10: OperationDatasetUnlinkByFile.undo with saved links never raises:
it restores a saved link onto each dataset that still exists and silently
skips every saved name that is no longer in the dataset map. -/
theorem C10_unlink_byfile_undo_total :
    (∀ (fn : String) (links : Smap String Link) (d : Doc),
      (Op.undo (.datasetUnlinkByFile fn (some links)) d).2 = none) ∧
    (∀ (links : Smap String Link) (m : Smap String Dataset) (q : String),
      m.lookup q = none → (m.restoreLinks links.entries).lookup q = none) ∧
    (∀ (links : Smap String Link) (m : Smap String Dataset) (q : String)
        (lk : Link) (ds : Dataset),
      links.lookup q = some lk → m.lookup q = some ds →
      (m.restoreLinks links.entries).lookup q =
        some { ds with linked := some lk }) := by
  refine ⟨?_, ?_, ?_⟩
  · intro fn links d
    rw [Op.undo]
  · intro links m q h
    exact restoreLinksLoopL_lookup_none links.entries m.entries q h
  · intro links m q lk ds hlk hds
    exact restoreLinksLoopL_lookup_mem links.entries m.entries q lk ds
      (entriesSorted_keys_nodup links.sorted) (lookupL_some_mem hlk) hds

end Veusz
